import Mathlib

/-!
# Verification of the Mus multi-agent environment core

A shallow embedding, in Lean 4, of the rules-engine core of the Mus card
game repository: the card model (`cards.py`), the hand evaluators
(`hand_evaluation.py`) and the betting-round / game-orchestrator state
machines (`game_logic.py`).  Pure Python functions become Lean functions;
the mutating methods become functions from state to state; the two sources
of randomness in the Python code — `random.shuffle` on the deck and the
per-opponent interception rolls for covert signals — are threaded through
as explicit oracle parameters (`shuffle`, `rolls`), and the betting actions
that `run_detailed_betting_round` draws from `random.choice` are supplied
as an explicit per-category action script.  Python `dict`s keyed by player
id become total functions (the code only ever reads keys it created), with
dict iteration order — which Python guarantees to be insertion order —
reproduced by iterating over the stored `players` list.  Python `int`s are
`Int` where negative values are representable (bets, scores), `Nat` where
the code only produces non-negative values (card orders, card values,
indices).  Python tuples of variable length (the hand evaluators) become
`List Nat`, compared by `pyLt`, the embedding of Python's lexicographic
tuple comparison.
-/

namespace Mus

/-! ## Card model (`cards.py`) -/

/-- The ten Mus ranks, `RANKS` in `cards.py`. -/
inductive Rank where
  | king | three | knight | jack | seven | six | five | four | two | ace
deriving DecidableEq, Repr, Fintype

/-- The four suits, `SUITS` in `cards.py`. -/
inductive Suit where
  | oros | copas | espadas | bastos
deriving DecidableEq, Repr, Fintype

/-- Ranking order values, the `ORDER` table in `cards.py`
(Kings and Threes are equal, as are Twos and Aces). -/
def ORDER : Rank → Nat
  | .king => 9
  | .three => 9
  | .knight => 8
  | .jack => 7
  | .seven => 6
  | .six => 5
  | .five => 4
  | .four => 3
  | .two => 2
  | .ace => 2

/-- Point values, the `VALUES` table in `cards.py`. -/
def VALUES : Rank → Nat
  | .king => 10
  | .three => 10
  | .knight => 10
  | .jack => 10
  | .seven => 7
  | .six => 6
  | .five => 5
  | .four => 4
  | .two => 1
  | .ace => 1

/-- A playing card, class `Card` of `cards.py`.  The Python constructor
stores `order` and `value` redundantly; they are pure functions of the
rank, so here they are projections. -/
structure Card where
  rank : Rank
  suit : Suit
deriving DecidableEq, Repr

/-- `self.order = ORDER[rank]` of the Python `Card` constructor. -/
def Card.order (c : Card) : Nat := ORDER c.rank

/-- `self.value = VALUES[rank]` of the Python `Card` constructor. -/
def Card.value (c : Card) : Nat := VALUES c.rank

/-- The list of all ranks in the order of `RANKS` in `cards.py`. -/
def RANKS : List Rank :=
  [.king, .three, .knight, .jack, .seven, .six, .five, .four, .two, .ace]

/-- The list of all suits in the order of `SUITS` in `cards.py`. -/
def SUITS : List Suit := [.oros, .copas, .espadas, .bastos]

/-- The deck built by the Python `Deck` constructor:
one card per `(rank, suit)` pair, suits outermost. -/
def fullDeck : List Card :=
  SUITS.flatMap (fun s => RANKS.map (fun r => Card.mk r s))

/-- Class `Deck` of `cards.py`: an ordered list of cards. -/
structure Deck where
  cards : List Card
deriving DecidableEq, Repr

/-- `Deck.deal` of `cards.py`: slice off the first `n` cards and return
them together with the remaining deck.  Note that, exactly like the Python
slices `cards[:n]` / `cards[n:]`, when `n` exceeds the deck size this
returns all remaining cards — fewer than `n` — and leaves the deck empty;
there is no error path. -/
def Deck.deal (d : Deck) (n : Nat) : List Card × Deck :=
  (d.cards.take n, ⟨d.cards.drop n⟩)

/-! ## Python tuple comparison

The hand evaluators return Python tuples, compared with `<` / `>`:
lexicographic, with a shorter tuple that is a prefix of a longer one
comparing smaller. -/

/-- Python's `<` on tuples of naturals (lexicographic, a proper prefix is
smaller). -/
def pyLt : List Nat → List Nat → Bool
  | [], [] => false
  | [], _ :: _ => true
  | _ :: _, [] => false
  | a :: as, b :: bs => if a < b then true else if b < a then false else pyLt as bs

/-- Insertion into a descending-sorted list, used to embed Python's
`sorted(..., reverse=True)`. -/
def insertDesc (x : Nat) : List Nat → List Nat
  | [] => [x]
  | y :: ys => if y ≤ x then x :: y :: ys else y :: insertDesc x ys

/-- Python's `sorted(l, reverse=True)` on naturals. -/
def sortDesc (l : List Nat) : List Nat := l.foldr insertDesc []

/-- Insertion into an ascending-sorted list, used to embed Python's
`sorted`. -/
def insertAsc (x : Nat) : List Nat → List Nat
  | [] => [x]
  | y :: ys => if x ≤ y then x :: y :: ys else y :: insertAsc x ys

/-- Python's `sorted(l)` on naturals. -/
def sortAsc (l : List Nat) : List Nat := l.foldr insertAsc []

/-! ## Hand evaluators (`hand_evaluation.py`) -/

/-- `evaluate_grande`: the four card orders sorted descending. -/
def evaluate_grande (hand : List Card) : List Nat :=
  sortDesc (hand.map Card.order)

/-- `evaluate_chica`: the four card orders sorted ascending. -/
def evaluate_chica (hand : List Card) : List Nat :=
  sortAsc (hand.map Card.order)

/-- The distinct ranks of a hand in first-occurrence order — the key set of
`collections.Counter(card.rank for card in hand)`, whose iteration order is
insertion order. -/
def pairsKeys (rs : List Rank) : List Rank :=
  rs.foldl (fun acc r => if r ∈ acc then acc else acc ++ [r]) []

/-- The multiplicity of rank `r` in the rank list `rs` —
`Counter(...)[r]`. -/
def rcount (rs : List Rank) (r : Rank) : Nat :=
  (rs.filter (fun x => decide (x = r))).length

/-- The ranks occurring exactly twice (`pairs` in `evaluate_pairs`). -/
def pairsOf (rs : List Rank) : List Rank :=
  (pairsKeys rs).filter (fun r => decide (rcount rs r = 2))

/-- The ranks occurring exactly three times (`triples`). -/
def triplesOf (rs : List Rank) : List Rank :=
  (pairsKeys rs).filter (fun r => decide (rcount rs r = 3))

/-- The ranks occurring exactly four times (`quads`). -/
def quadsOf (rs : List Rank) : List Rank :=
  (pairsKeys rs).filter (fun r => decide (rcount rs r = 4))

/-- The body of `evaluate_pairs`, which depends only on the multiset of
ranks: four-of-a-kind gives `(3, order)`, a triple `(2, order)`, two
distinct pairs `(3, hi, lo)`, a single pair `(1, order)`, otherwise
`(0,)`.  The final catch-all matches the Python `else` branch. -/
def pairsRanks (rs : List Rank) : List Nat :=
  match quadsOf rs with
  | q :: _ => [3, ORDER q]
  | [] =>
    match triplesOf rs with
    | t :: _ => [2, ORDER t]
    | [] =>
      match pairsOf rs with
      | [a, b] => 3 :: sortDesc [ORDER a, ORDER b]
      | [a] => [1, ORDER a]
      | _ => [0]

/-- `evaluate_pairs` of `hand_evaluation.py`. -/
def evaluate_pairs (hand : List Card) : List Nat :=
  pairsRanks (hand.map Card.rank)

/-- The `juego_ranking` dictionary of `evaluate_juego`, with the `.get`
default of `0` for totals outside the table. -/
def juegoRanking (total : Nat) : Nat :=
  if total = 31 then 8
  else if total = 32 then 7
  else if total = 40 then 6
  else if total = 37 then 5
  else if total = 36 then 4
  else if total = 35 then 3
  else if total = 34 then 2
  else if total = 33 then 1
  else 0

/-- The sum of the card point values of a hand, `total` in
`evaluate_juego`. -/
def valueSum (hand : List Card) : Nat := (hand.map Card.value).sum

/-- The body of `evaluate_juego` as a function of the value total:
`(1, rank)` when the total reaches 31, `(0, total)` otherwise. -/
def juegoOfSum (total : Nat) : List Nat :=
  if 31 ≤ total then [1, juegoRanking total] else [0, total]

/-- `evaluate_juego` of `hand_evaluation.py`. -/
def evaluate_juego (hand : List Card) : List Nat :=
  juegoOfSum (valueSum hand)

/-- The qualifying juego totals in their ranking order, strongest first
(31 best, then 32, 40, 37, 36, 35, 34, 33). -/
def juegoTable : List Nat := [31, 32, 40, 37, 36, 35, 34, 33]

/-- Position of a value in a list (used to express "ranks strictly in this
order" over `juegoTable`). -/
def idxIn : List Nat → Nat → Nat
  | [], _ => 0
  | x :: xs, s => if x = s then 0 else idxIn xs s + 1

end Mus

namespace Mus

/-! ## Betting round (`game_logic.py`, class `BettingRound`)

The `bets` dictionary maps players to `None`, an integer, or the string
sentinel `'ordago'`; here it is a total function into `Option BetVal`
(the Python code only reads keys of `self.players`, on which the embedding
agrees with the dictionary).  Dict iteration order is the insertion order,
i.e. the order of the `players` list, so every iteration over the
dictionaries is embedded as an iteration over `players`. -/

/-- A recorded bet: an integer, or the all-in sentinel `'ordago'`. -/
inductive BetVal where
  | num (n : Int)
  | ordago
deriving DecidableEq, Repr

/-- The four play categories, the `play_type` strings of `game_logic.py`. -/
inductive PlayType where
  | grande | chica | pares | juego
deriving DecidableEq, Repr

/-- The betting actions accepted by `BettingRound.player_action`
(`'bet'`, `'raise'` with its amount, `'call'`, `'pass'`, `'ordago'`). -/
inductive BAction where
  | bet
  | raiseBy (amount : Int)
  | call
  | pass
  | ordago
deriving DecidableEq, Repr

/-- Pointwise update of a total function, the embedding of a Python dict
assignment `d[x] = v`. -/
def updFn {α : Type} (f : Nat → α) (x : Nat) (v : α) : Nat → α :=
  fun y => if y = x then v else f y

/-- Class `BettingRound` of `game_logic.py`. -/
structure BettingRound where
  players : List Nat
  playType : PlayType
  currentBet : Int
  bets : Nat → Option BetVal
  active : Nat → Bool
  lastRaiser : Option Nat
  finished : Bool

/-- The `BettingRound` constructor: bets all `None`, every listed player
active, no last raiser, not finished. -/
def mkBettingRound (players : List Nat) (playType : PlayType)
    (initialBet : Int) : BettingRound :=
  { players := players
    playType := playType
    currentBet := initialBet
    bets := fun _ => none
    active := fun p => decide (p ∈ players)
    lastRaiser := none
    finished := false }

/-- `BettingRound.player_action`: a no-op for an inactive player; `bet`
records the current bet (first setting it to 1 if it is 0); `raise` adds
the amount to the current bet unconditionally (the Python code performs no
validation of the amount); `call` records the current bet; `pass`
deactivates the player; `ordago` records the sentinel and sets the
finished flag.  The Python method never consults the finished flag. -/
def playerAction (br : BettingRound) (player : Nat) (a : BAction) :
    BettingRound :=
  if br.active player then
    match a with
    | .bet =>
      let cb := if br.currentBet = 0 then 1 else br.currentBet
      { br with currentBet := cb
                bets := updFn br.bets player (some (.num cb))
                lastRaiser := some player }
    | .raiseBy amount =>
      let cb := br.currentBet + amount
      { br with currentBet := cb
                bets := updFn br.bets player (some (.num cb))
                lastRaiser := some player }
    | .call =>
      { br with bets := updFn br.bets player (some (.num br.currentBet)) }
    | .pass =>
      { br with active := updFn br.active player false }
    | .ordago =>
      { br with bets := updFn br.bets player (some .ordago)
                finished := true }
  else br

/-- The players still marked active, in betting order (`active_players` in
`is_round_complete`). -/
def activePlayers (br : BettingRound) : List Nat :=
  br.players.filter (fun p => br.active p)

/-- The recorded non-`None`, non-ordago bets of the active players, in
betting order (`active_bets` in `is_round_complete`). -/
def activeBets (br : BettingRound) : List Int :=
  (activePlayers br).filterMap (fun p =>
    match br.bets p with
    | some (.num n) => some n
    | _ => none)

/-- `BettingRound.is_round_complete`: at most one active player, or a
non-empty set of recorded active bets that are all equal. -/
def isRoundComplete (br : BettingRound) : Bool :=
  if (activePlayers br).length ≤ 1 then true
  else
    match activeBets br with
    | [] => false
    | b :: rest => rest.all (fun x => decide (x = b))

/-- First-wins maximum of a list of `(player, bet)` pairs: the embedding of
Python's `max(valid_bets, key=valid_bets.get)`, which keeps the current
maximum unless a later value is strictly greater. -/
def argmaxFirst : List (Nat × Int) → Option (Nat × Int)
  | [] => none
  | x :: xs => some (xs.foldl (fun best y => if best.2 < y.2 then y else best) x)

/-- The `valid_bets` dictionary of `get_winner`: the players with a
recorded bet, in dict (= betting) order.  In the branch where it is read
no recorded bet is the ordago sentinel, so restricting to numeric bets is
exact. -/
def validBets (br : BettingRound) : List (Nat × Int) :=
  br.players.filterMap (fun p =>
    match br.bets p with
    | some (.num n) => some (p, n)
    | _ => none)

/-- `BettingRound.get_winner`: the first player (in betting order, which is
dict order) whose recorded bet is the ordago sentinel wins with outcome
`'ordago'`; otherwise the first player with the numerically largest
recorded bet wins, paired with the final `current_bet`; with no recorded
bets at all the result is `(None, None)`. -/
def getWinner (br : BettingRound) : Option Nat × Option BetVal :=
  match br.players.find? (fun q => decide (br.bets q = some .ordago)) with
  | some p => (some p, some .ordago)
  | none =>
    match argmaxFirst (validBets br) with
    | some x => (some x.1, some (.num br.currentBet))
    | none => (none, none)

/-- Run a list of `(player, action)` pairs through a betting round — the
action trace of one `run_detailed_betting_round` loop, with the random
`random.choice` draws of the Python demonstration code generalized to an
arbitrary script. -/
def runActions (br : BettingRound) (script : List (Nat × BAction)) :
    BettingRound :=
  script.foldl (fun b pa => playerAction b pa.1 pa.2) br

end Mus

namespace Mus

/-! ## Game orchestrator (`game_logic.py`, class `MusGame`)

The constructor's `Deck(); deck.shuffle()` and the reshuffle inside
`draw_from_deck` consume `random.shuffle`; the embedding threads an
explicit `shuffle` oracle, assumed (where it matters) to permute its
input.  The interception rolls of `update_covert_signal` become the
`rolls` oracle, and the random action choices of
`run_detailed_betting_round` become a per-category action script. -/

/-- The game phases of `MusGame.current_phase`. -/
inductive Phase where
  | deal | mus | play | scoring
deriving DecidableEq, Repr

/-- Class `MusGame` of `game_logic.py`.  `mano` starts as Python `None`;
it is only read after `initial_deal` assigns it, so the embedding starts it
at `0`.  `scores` is the two-team score dictionary, split into its two
entries. -/
structure MusGame where
  numPlayers : Nat
  targetScore : Int
  deck : Deck
  hands : List (List Card)
  discardPile : List Card
  phase : Phase
  scores0 : Int
  scores1 : Int
  mano : Nat
  turnOrder : List Nat
  currentTurnIndex : Nat
  playCategories : List PlayType
  playResults : List (PlayType × (Option Nat × Option BetVal))
  ordagoActive : Bool
  ordagoPlayer : Option Nat
  covertSignals : Nat → Nat
  interceptedSignals : Nat → List Nat
  handsRevealed : Bool

/-- The `MusGame` constructor (the float `signal_intercept_chance` is
absorbed into the `rolls` oracle of `updateCovertSignal` and not stored). -/
def mkMusGame (shuffle : List Card → List Card) (numPlayers : Nat)
    (targetScore : Int) : MusGame :=
  { numPlayers := numPlayers
    targetScore := targetScore
    deck := ⟨shuffle fullDeck⟩
    hands := List.replicate numPlayers []
    discardPile := []
    phase := .deal
    scores0 := 0
    scores1 := 0
    mano := 0
    turnOrder := []
    currentTurnIndex := 0
    playCategories := []
    playResults := []
    ordagoActive := false
    ordagoPlayer := none
    covertSignals := fun _ => 0
    interceptedSignals := fun _ => []
    handsRevealed := false }

/-- `MusGame.draw_from_deck`: when the deck holds fewer than `n` cards,
first move the discard pile into the deck and shuffle the whole; then deal
`n` cards off the front. -/
def drawFromDeck (shuffle : List Card → List Card) (g : MusGame)
    (n : Nat) : List Card × MusGame :=
  let g1 := if g.deck.cards.length < n then
      { g with deck := ⟨shuffle (g.deck.cards ++ g.discardPile)⟩
               discardPile := [] }
    else g
  let dealt := (g1.deck.deal n).1
  (dealt, { g1 with deck := (g1.deck.deal n).2 })

/-- `MusGame.determine_mano`: compare the first card of every hand by
`order`; the first player seen with the strictly largest order (starting
from the Python sentinel `highest = -1`) becomes mano. -/
def determineMano (g : MusGame) : Nat :=
  ((List.range g.numPlayers).foldl (fun (acc : Int × Nat) p =>
      let o : Int := ((g.hands.getD p []).headD (Card.mk .two .oros)).order
      if acc.1 < o then (o, p) else acc)
    (-1, 0)).2

/-- `MusGame.set_turn_order`: clockwise from mano. -/
def setTurnOrder (g : MusGame) : MusGame :=
  { g with turnOrder := ((List.range g.numPlayers).map
             (fun i => (g.mano + i) % g.numPlayers)),
           currentTurnIndex := 0 }

/-- One iteration of the dealing loop of `MusGame.initial_deal`:
draw four cards and make them player `p`'s hand. -/
def dealStep (shuffle : List Card → List Card) (s : MusGame) (p : Nat) :
    MusGame :=
  { (drawFromDeck shuffle s 4).2 with
      hands := (drawFromDeck shuffle s 4).2.hands.set p
        (drawFromDeck shuffle s 4).1 }

/-- `MusGame.initial_deal`: deal four cards to every player, determine
mano, set the turn order, move to the `mus` phase. -/
def initialDeal (shuffle : List Card → List Card) (g : MusGame) : MusGame :=
  let g1 := (List.range g.numPlayers).foldl (dealStep shuffle) g
  let g2 := { g1 with mano := determineMano g1 }
  { setTurnOrder g2 with phase := .mus, handsRevealed := false }

/-- The cards kept by a discard action (`new_hand` in
`perform_discard`): the hand entries whose index is outside the discard
set, in order. -/
def keptOf (hand : List Card) (idxs : List Nat) : List Card :=
  (hand.enum.filter (fun x => !(decide (x.1 ∈ idxs)))).map Prod.snd

/-- The cards removed by a discard action (`discarded` in
`perform_discard`). -/
def discardedOf (hand : List Card) (idxs : List Nat) : List Card :=
  (hand.enum.filter (fun x => decide (x.1 ∈ idxs))).map Prod.snd

/-- The state manipulation of `perform_discard` once the kept and
discarded cards are known: store the kept hand, draw replacements
(possibly reshuffling), extend the hand with them, and append the
discarded cards to the discard pile. -/
def performDiscardAux (shuffle : List Card → List Card) (g : MusGame)
    (player : Nat) (kept discarded : List Card) : MusGame :=
  { (drawFromDeck shuffle { g with hands := g.hands.set player kept }
      discarded.length).2 with
      hands := (drawFromDeck shuffle
          { g with hands := g.hands.set player kept }
          discarded.length).2.hands.set player
        (kept ++ (drawFromDeck shuffle
          { g with hands := g.hands.set player kept } discarded.length).1)
      discardPile := (drawFromDeck shuffle
          { g with hands := g.hands.set player kept }
          discarded.length).2.discardPile ++ discarded }

/-- `MusGame.perform_discard`: split the hand by the discarded index set,
draw equally many replacements (possibly reshuffling the discard pile into
the deck first), extend the kept hand with them, and append the discarded
cards to the discard pile. -/
def performDiscard (shuffle : List Card → List Card) (g : MusGame)
    (player : Nat) (idxs : List Nat) : MusGame :=
  performDiscardAux shuffle g player (keptOf (g.hands.getD player []) idxs)
    (discardedOf (g.hands.getD player []) idxs)

/-- Membership in team 0, the Python set `{mano, (mano + 2) % num_players}`
used throughout `MusGame`. -/
def isTeam0 (g : MusGame) (p : Nat) : Bool :=
  decide (p = g.mano) || decide (p = (g.mano + 2) % g.numPlayers)

/-- Team 0 as a list of player ids (the Python set ranges over players
`0 .. num_players - 1`). -/
def team0List (g : MusGame) : List Nat :=
  (List.range g.numPlayers).filter (fun p => isTeam0 g p)

/-- Team 1: the complement of team 0 among the players. -/
def team1List (g : MusGame) : List Nat :=
  (List.range g.numPlayers).filter (fun p => !(isTeam0 g p))

/-- `set.add` on a player-id set represented as a duplicate-free list. -/
def addToSet (l : List Nat) (x : Nat) : List Nat :=
  if x ∈ l then l else l ++ [x]

/-- `MusGame.update_covert_signal`: signal 0 clears the sender's entry and
performs no interception check; a nonzero signal is stored, and every
opponent whose `rolls` oracle fires (standing for
`random.random() < signal_intercept_chance`) records the sender as
intercepted. -/
def updateCovertSignal (rolls : Nat → Bool) (g : MusGame) (player sig : Nat) :
    MusGame :=
  if sig = 0 then { g with covertSignals := updFn g.covertSignals player 0 }
  else
    let g1 := { g with covertSignals := updFn g.covertSignals player sig }
    let opponents := if isTeam0 g1 player then team1List g1 else team0List g1
    opponents.foldl (fun gg opp =>
      if rolls opp then
        { gg with interceptedSignals := (updFn gg.interceptedSignals opp
            (addToSet (gg.interceptedSignals opp) player)) }
      else gg) g1

/-- The sum of the card orders of one hand, the inner sum of
`MusGame.resolve_ordago`. -/
def orderSum (hand : List Card) : Nat := (hand.map Card.order).sum

/-- Team 0's total of card orders across its hands (`score0` in
`resolve_ordago`). -/
def teamOrderSum0 (g : MusGame) : Nat :=
  ((team0List g).map (fun p => orderSum (g.hands.getD p []))).sum

/-- Team 1's total of card orders across its hands (`score1` in
`resolve_ordago`). -/
def teamOrderSum1 (g : MusGame) : Nat :=
  ((team1List g).map (fun p => orderSum (g.hands.getD p []))).sum

/-- `MusGame.resolve_ordago`: reveal all hands (`reveal_hands` sets the
flag and prints), then return the team with the strictly larger order
total, or `None` on a tie. -/
def resolveOrdago (g : MusGame) : MusGame × Option Nat :=
  let g1 := { g with handsRevealed := true }
  (g1, if teamOrderSum1 g1 < teamOrderSum0 g1 then some 0
       else if teamOrderSum0 g1 < teamOrderSum1 g1 then some 1
       else none)

/-- `play_results.get(play, (None, None))` on the results association
list. -/
def lookupResult (l : List (PlayType × (Option Nat × Option BetVal)))
    (c : PlayType) : Option Nat × Option BetVal :=
  match l.find? (fun x => decide (x.1 = c)) with
  | some x => x.2
  | none => (none, none)

/-- First-wins argmax under the Python tuple order — the embedding of
`max(evaluations, key=evaluations.get)` over a dict whose keys are
`0 .. n - 1` in order. -/
def argmaxByPy (f : Nat → List Nat) : List Nat → Option Nat
  | [] => none
  | p :: ps => some (ps.foldl (fun best q => if pyLt (f best) (f q) then q else best) p)

/-- First-wins argmin under the Python tuple order — the embedding of
`min(evaluations, key=evaluations.get)`. -/
def argminByPy (f : Nat → List Nat) : List Nat → Option Nat
  | [] => none
  | p :: ps => some (ps.foldl (fun best q => if pyLt (f q) (f best) then q else best) p)

/-- The per-category hand-evaluation winner of `MusGame.score_round`
(`best_player`): extremal player over all hands under the category's
evaluator. -/
def bestPlayer (g : MusGame) : PlayType → Option Nat
  | .grande => argmaxByPy (fun p => evaluate_grande (g.hands.getD p []))
      (List.range g.numPlayers)
  | .chica => argminByPy (fun p => evaluate_chica (g.hands.getD p []))
      (List.range g.numPlayers)
  | .pares => argmaxByPy (fun p => evaluate_pairs (g.hands.getD p []))
      (List.range g.numPlayers)
  | .juego => argmaxByPy (fun p => evaluate_juego (g.hands.getD p []))
      (List.range g.numPlayers)

/-- One category of the non-ordago scoring loop of `MusGame.score_round`:
prefer the betting winner, else the evaluation winner; a winner in team 0
scores one stone for team 0, a winner among the remaining players scores
one for team 1. -/
def scoreStep (g : MusGame) (acc : Int × Int) (play : PlayType) : Int × Int :=
  let bw := (lookupResult g.playResults play).1
  let fw := match bw with
    | some w => some w
    | none => bestPlayer g play
  match fw with
  | none => acc
  | some w =>
    if isTeam0 g w then (acc.1 + 1, acc.2)
    else if w < g.numPlayers then (acc.1, acc.2 + 1)
    else acc

/-- `MusGame.score_round`: with an active ordago, resolve it and award the
full target score to the winning team (nothing on a tie); otherwise fold
the per-category scoring over `play_categories`.  Either way the round
scores are added to the running team scores and the phase returns to
`deal`. -/
def scoreRound (g : MusGame) : MusGame :=
  if g.ordagoActive then
    let g1 := (resolveOrdago g).1
    let r : Int × Int := match (resolveOrdago g).2 with
      | some 0 => (g1.targetScore, 0)
      | some 1 => (0, g1.targetScore)
      | _ => (0, 0)
    { g1 with scores0 := g1.scores0 + r.1
              scores1 := g1.scores1 + r.2
              phase := .deal }
  else
    let r := g.playCategories.foldl (scoreStep g) (0, 0)
    { g with scores0 := g.scores0 + r.1
             scores1 := g.scores1 + r.2
             phase := .deal }

/-- `MusGame.run_detailed_betting_round`, with the betting actions of the
loop supplied as a script: run the actions, read off the winner, and set
the ordago flags when the outcome is the sentinel. -/
def runDetailedBettingRound (script : List (Nat × BAction)) (g : MusGame)
    (play : PlayType) : MusGame × (Option Nat × Option BetVal) :=
  let br := runActions (mkBettingRound g.turnOrder play 1) script
  let res := getWinner br
  if res.2 = some .ordago then
    ({ g with ordagoActive := true, ordagoPlayer := res.1 }, res)
  else (g, res)

/-- The category loop of `MusGame.start_play_phase`: run each category's
betting round, record its result, and break out as soon as the ordago flag
is set. -/
def playLoop (scripts : PlayType → List (Nat × BAction)) :
    MusGame → List PlayType → MusGame
  | g, [] => g
  | g, play :: rest =>
    let run := runDetailedBettingRound (scripts play) g play
    let g2 := { run.1 with playResults := run.1.playResults ++ [(play, run.2)] }
    if g2.ordagoActive then g2 else playLoop scripts g2 rest

/-- `MusGame.start_play_phase`: enter the play phase, reset the category
list and results, run the betting rounds (stopping at an ordago), then
move to scoring and score the round. -/
def startPlayPhase (scripts : PlayType → List (Nat × BAction))
    (g : MusGame) : MusGame :=
  let g1 := { g with phase := .play
                     playCategories := [.grande, .chica, .pares, .juego]
                     playResults := [] }
  let g2 := playLoop scripts g1 g1.playCategories
  scoreRound { g2 with phase := .scoring }

/-- `MusGame.finish_round`: back to the deal phase. -/
def finishRound (g : MusGame) : MusGame := { g with phase := .deal }

/-- `MusGame.is_terminal`: some team reached the target score. -/
def isTerminal (g : MusGame) : Bool :=
  decide (g.targetScore ≤ g.scores0) || decide (g.targetScore ≤ g.scores1)

/-- One entry of the action dictionaries consumed by `MusGame.step`:
an `action_type` with the optional `cards` mask and `signal` payloads
(the fields `step` reads in the `mus` phase). -/
structure PAction where
  actionType : Nat
  cards : Option (List Nat)
  signal : Option Nat

/-- The binary discard mask to index-list conversion inside
`MusGame.step`. -/
def maskToIdxs (mask : List Nat) : List Nat :=
  (mask.enum.filter (fun x => decide (x.2 = 1))).map Prod.fst

/-- The per-player-entry body of the `mus`-phase loop of `MusGame.step`:
process a signal action (type 5) and then a discard action (type 0),
leaving anything else untouched. -/
def stepMusAction (shuffle : List Card → List Card) (rolls : Nat → Bool)
    (gg : MusGame) (pa : Nat × PAction) : MusGame :=
  let gg1 := if pa.2.actionType = 5 then
      match pa.2.signal with
      | some sv => updateCovertSignal rolls gg pa.1 sv
      | none => gg
    else gg
  if pa.2.actionType = 0 then
    match pa.2.cards with
    | some mask => performDiscard shuffle gg1 pa.1 (maskToIdxs mask)
    | none => gg1
  else gg1

/-- `MusGame.step`: in the `mus` phase process the batched signal and
discard actions in input order and then start the play phase; in the
`play` phase start the play phase (betting is auto-run); in `scoring`
finish the round; otherwise do nothing.  The Python return value (the
intercepted-signal report) is dropped; only the state evolution is
modeled. -/
def stepGame (shuffle : List Card → List Card)
    (scripts : PlayType → List (Nat × BAction)) (rolls : Nat → Bool)
    (g : MusGame) (actions : List (Nat × PAction)) : MusGame :=
  match g.phase with
  | .mus => startPlayPhase scripts
      (actions.foldl (stepMusAction shuffle rolls) g)
  | .play => startPlayPhase scripts g
  | .scoring => finishRound g
  | .deal => g

end Mus

namespace Mus

/-! ## Concrete fixtures used by the witnesses -/

/-- The `[King, King, Jack, Jack]` hand of the pares scenario. -/
def handKKJJ : List Card :=
  [Card.mk .king .oros, Card.mk .king .copas, Card.mk .jack .oros,
   Card.mk .jack .copas]

/-- The `[King, King, Seven, Four]` hand of the pares scenario. -/
def handKK74 : List Card :=
  [Card.mk .king .oros, Card.mk .king .copas, Card.mk .seven .oros,
   Card.mk .four .copas]

/-- A hand whose value total is 31 (the best juego). -/
def handSum31 : List Card :=
  [Card.mk .king .oros, Card.mk .king .copas, Card.mk .king .espadas,
   Card.mk .ace .bastos]

/-- A hand whose value total is 32. -/
def handSum32 : List Card :=
  [Card.mk .king .oros, Card.mk .king .copas, Card.mk .seven .oros,
   Card.mk .five .copas]

/-- A hand whose value total is 30 (no juego). -/
def handSum30 : List Card :=
  [Card.mk .king .oros, Card.mk .king .copas, Card.mk .six .oros,
   Card.mk .four .copas]

/-- A hand whose value total is 20 (no juego). -/
def handSum20 : List Card :=
  [Card.mk .five .oros, Card.mk .five .copas, Card.mk .five .espadas,
   Card.mk .five .bastos]

/-- A mid-game state used to exercise the play phase: four players, mano 0,
turn order set, team 0 (players 0 and 2) holding kings and team 1 holding
aces, target score 40. -/
def c3Game : MusGame :=
  { mkMusGame id 4 40 with
      mano := 0
      turnOrder := [0, 1, 2, 3]
      phase := .mus
      hands := [List.replicate 4 (Card.mk .king .oros),
                List.replicate 4 (Card.mk .ace .oros),
                List.replicate 4 (Card.mk .king .copas),
                List.replicate 4 (Card.mk .ace .copas)] }

/-- Betting scripts in which player 0 declares ordago in the grande round
and nothing else happens. -/
def c3Scripts : PlayType → List (Nat × BAction)
  | .grande => [(0, .ordago)]
  | _ => []

/-! ## Card-conservation instrumentation -/

/-- The conserved quantity: deck size plus discard-pile size plus the
total of all hand sizes. -/
def totalCards (g : MusGame) : Nat :=
  g.deck.cards.length + g.discardPile.length
    + (g.hands.map List.length).sum

/-- An observable card-moving operation between two observation points of
one partial game: a discard-and-redraw by one player (reshuffles happen
inside it, via `draw_from_deck`). -/
inductive MusOp where
  | discardOp (player : Nat) (idxs : List Nat)
deriving DecidableEq, Repr

/-- The acting player of an operation. -/
def MusOp.player : MusOp → Nat
  | .discardOp p _ => p

/-- Apply one operation to the game state. -/
def applyOp (shuffle : List Card → List Card) (g : MusGame) :
    MusOp → MusGame
  | .discardOp p idxs => performDiscard shuffle g p idxs

/-- All observation points of a run: the state before each operation and
the final state. -/
def statesFrom (shuffle : List Card → List Card) (g : MusGame) :
    List MusOp → List MusGame
  | [] => [g]
  | op :: ops => g :: statesFrom shuffle (applyOp shuffle g op) ops

/-- The `(winner, final_bet)` outcome of one category's betting round as
computed inside `run_detailed_betting_round`: a fresh round over the turn
order, driven by the category's action script, read off by
`get_winner`. -/
def roundOutcome (turnOrder : List Nat)
    (scripts : PlayType → List (Nat × BAction)) (c : PlayType) :
    Option Nat × Option BetVal :=
  getWinner (runActions (mkBettingRound turnOrder c 1) (scripts c))

end Mus

namespace Mus

/-! ## Betting-round basics -/

/-- The update function agrees with the old function away from the updated
key. -/
theorem updFn_ne {α : Type} (f : Nat → α) (x v) {y : Nat} (h : y ≠ x) :
    updFn f x v y = f y := by
  simp [updFn, h]

/-- The update function returns the new value at the updated key. -/
theorem updFn_self {α : Type} (f : Nat → α) (x v) : updFn f x v x = v := by
  simp [updFn]

/-- An action by an inactive player leaves the betting round unchanged
(the guard at the top of `player_action`). -/
theorem playerAction_inactive (br : BettingRound) (player : Nat)
    (a : BAction) (h : br.active player = false) :
    playerAction br player a = br := by
  simp [playerAction, h]

/-- C9 (counterexample): the claim that a Complete round never changes
state again is false.  After player 0 bets and player 1 calls, the round
of players `[0, 1]` satisfies `is_round_complete`, yet a further `raise`
by player 0 — still marked active — changes `current_bet` from 1 to 2. -/
theorem claim9_counterexample :
    (isRoundComplete (playerAction
        (playerAction (mkBettingRound [0, 1] .grande 1) 0 .bet) 1 .call)
      = true) ∧
    ((playerAction (playerAction (mkBettingRound [0, 1] .grande 1) 0 .bet)
        1 .call).active 0 = true) ∧
    ((playerAction (playerAction (mkBettingRound [0, 1] .grande 1) 0 .bet)
        1 .call).currentBet = 1) ∧
    ((playerAction (playerAction
        (playerAction (mkBettingRound [0, 1] .grande 1) 0 .bet) 1 .call)
        0 (.raiseBy 1)).currentBet = 2) := by
  refine ⟨by decide, by decide, by decide, by decide⟩

/-- C9 (amended): `player_action` never consults the finished flag or the
completion rule; what does hold is that any action by a player marked
inactive — in particular every player who has passed — leaves every part
of the round's state unchanged. -/
theorem claim9_amended (br : BettingRound) (player : Nat) (a : BAction)
    (h : br.active player = false) :
    playerAction br player a = br :=
  playerAction_inactive br player a h

/-- Witness for `claim9_amended`: player 1 of a two-player round has
passed; a subsequent bet by player 1 is a no-op. -/
theorem claim9_amended_witness :
    playerAction (playerAction (mkBettingRound [0, 1] .grande 1) 1 .pass)
        1 .bet
      = playerAction (mkBettingRound [0, 1] .grande 1) 1 .pass :=
  claim9_amended _ 1 .bet (by decide)

/-- C7 (counterexample): the claim that a non-positive raise is rejected
as `InvalidAction` with the round state unchanged is false.  A `raise` of
amount 0 by active player 0 of a fresh round is processed normally: the
player's recorded bet changes from `None` to the current bet and the
player becomes last raiser. -/
theorem claim7_counterexample :
    ((playerAction (mkBettingRound [0, 1] .grande 1) 0 (.raiseBy 0)).bets 0
        = some (.num 1)) ∧
    ((mkBettingRound [0, 1] .grande 1).bets 0 = none) ∧
    ((playerAction (mkBettingRound [0, 1] .grande 1) 0
        (.raiseBy 0)).lastRaiser = some 0) ∧
    ((mkBettingRound [0, 1] .grande 1).lastRaiser = none) := by
  refine ⟨by decide, by decide, by decide, by decide⟩

/-- C7 (amended): `player_action` performs no validation of the raise
amount.  A `raise` by an active player with a non-positive amount is
accepted like any other raise: the current bet is increased by the (zero
or negative) amount, the player's bet is recorded as the new current bet,
and the player becomes the last raiser. -/
theorem claim7_amended (br : BettingRound) (player : Nat) (amount : Int)
    (hact : br.active player = true) (_hnp : amount ≤ 0) :
    ((playerAction br player (.raiseBy amount)).currentBet
        = br.currentBet + amount) ∧
    ((playerAction br player (.raiseBy amount)).bets player
        = some (.num (br.currentBet + amount))) ∧
    ((playerAction br player (.raiseBy amount)).lastRaiser = some player) := by
  refine ⟨?_, ?_, ?_⟩ <;> simp [playerAction, hact, updFn]

/-- Witness for `claim7_amended` at a zero raise by player 0. -/
theorem claim7_amended_witness :
    ((playerAction (mkBettingRound [0, 1] .grande 1) 0
        (.raiseBy 0)).currentBet = 1 + 0) ∧
    ((playerAction (mkBettingRound [0, 1] .grande 1) 0 (.raiseBy 0)).bets 0
        = some (.num (1 + 0))) ∧
    ((playerAction (mkBettingRound [0, 1] .grande 1) 0
        (.raiseBy 0)).lastRaiser = some 0) :=
  claim7_amended (mkBettingRound [0, 1] .grande 1) 0 0 (by decide)
    (by decide)

/-! ## Deck dealing -/

/-- C8 (counterexample): the claim that `deal(n)` fails with
`InsufficientCards` when `n` exceeds the deck size is false.  Dealing 41
cards from the full 40-card deck silently returns all 40 remaining cards —
fewer than requested — and empties the deck. -/
theorem claim8_counterexample :
    ((Deck.mk fullDeck).deal 41).1.length = 40 ∧
    ((Deck.mk fullDeck).deal 41).2.cards = [] ∧ (40 : Nat) < 41 := by
  refine ⟨by decide, by decide, by decide⟩

/-- C8 (amended): `deal(n)` never fails.  The dealt cards followed by the
remaining deck reconstitute the original deck in order; exactly
`min n size` cards are dealt, so for `n` within the deck size the first
`n` cards are removed and returned, while for `n` beyond the deck size
all remaining cards are returned (fewer than `n`) and the deck is left
empty. -/
theorem claim8_amended (d : Deck) (n : Nat) :
    ((d.deal n).1 ++ (d.deal n).2.cards = d.cards) ∧
    ((d.deal n).1.length = min n d.cards.length) ∧
    (n ≤ d.cards.length → (d.deal n).1.length = n) ∧
    (d.cards.length < n →
      (d.deal n).1 = d.cards ∧ (d.deal n).2.cards = []) := by
  refine ⟨List.take_append_drop n d.cards, List.length_take n d.cards,
    fun h => ?_, fun h => ⟨?_, ?_⟩⟩
  · simp [Deck.deal, List.length_take]
    omega
  · exact List.take_of_length_le (Nat.le_of_lt h)
  · simpa [Deck.deal] using List.drop_eq_nil_of_le (Nat.le_of_lt h)

/-- Witness for `claim8_amended` on the full deck: dealing 4 yields 4
cards, and dealing 41 returns the whole deck. -/
theorem claim8_amended_witness :
    (((Deck.mk fullDeck).deal 4).1.length = 4) ∧
    (((Deck.mk fullDeck).deal 41).1 = fullDeck ∧
      ((Deck.mk fullDeck).deal 41).2.cards = []) :=
  ⟨(claim8_amended (Deck.mk fullDeck) 4).2.2.1 (by decide),
   (claim8_amended (Deck.mk fullDeck) 41).2.2.2 (by decide)⟩

end Mus

namespace Mus

/-! ## Winner determination (`get_winner`) -/

/-- `find?` returns the distinguished element when it is the only one of
the list satisfying the predicate. -/
theorem find?_eq_some_of_unique {α : Type} {p : α → Bool} {l : List α}
    {a : α} (hmem : a ∈ l) (ha : p a = true)
    (hothers : ∀ b ∈ l, b ≠ a → p b = false) :
    l.find? p = some a := by
  induction l with
  | nil => cases hmem
  | cons x xs ih =>
    by_cases hx : p x = true
    · have hxa : x = a := by
        by_contra hne
        rw [hothers x (List.mem_cons_self x xs) hne] at hx
        cases hx
      rw [List.find?_cons_of_pos _ hx, hxa]
    · have hax : a ≠ x := by
        intro h
        rw [h] at ha
        exact hx ha
      have hmem' : a ∈ xs := by
        rcases List.mem_cons.mp hmem with h | h
        · exact absurd h hax
        · exact h
      rw [List.find?_cons_of_neg _ (by simpa using hx)]
      exact ih hmem' (fun b hb hne => hothers b (List.mem_cons_of_mem x hb) hne)

/-- The Python `max` fold stays inside the candidate list. -/
theorem foldl_pyMax_mem (xs : List (Nat × Int)) (a : Nat × Int) :
    xs.foldl (fun best y => if best.2 < y.2 then y else best) a ∈ a :: xs := by
  induction xs generalizing a with
  | nil => simp
  | cons x xs ih =>
    simp only [List.foldl_cons]
    by_cases hlt : a.2 < x.2
    · rw [if_pos hlt]
      exact List.mem_cons_of_mem a (ih x)
    · rw [if_neg hlt]
      rcases List.mem_cons.mp (ih a) with h1 | h1
      · simp [h1]
      · simp [List.mem_cons_of_mem, h1]

/-- The Python `max` fold dominates its seed and every candidate. -/
theorem foldl_pyMax_ge (xs : List (Nat × Int)) (a : Nat × Int) :
    a.2 ≤ (xs.foldl (fun best y => if best.2 < y.2 then y else best) a).2 ∧
    ∀ y ∈ xs,
      y.2 ≤ (xs.foldl (fun best y => if best.2 < y.2 then y else best) a).2 := by
  induction xs generalizing a with
  | nil => exact ⟨le_refl _, by simp⟩
  | cons x xs ih =>
    have h := ih (if a.2 < x.2 then x else a)
    have hseed : a.2 ≤ (if a.2 < x.2 then x else a).2 := by
      by_cases hlt : a.2 < x.2
      · rw [if_pos hlt]; exact le_of_lt hlt
      · rw [if_neg hlt]
    have hx : x.2 ≤ (if a.2 < x.2 then x else a).2 := by
      by_cases hlt : a.2 < x.2
      · rw [if_pos hlt]
      · rw [if_neg hlt]; omega
    refine ⟨le_trans hseed h.1, fun y hy => ?_⟩
    rcases List.mem_cons.mp hy with h1 | h1
    · subst h1
      exact le_trans hx h.1
    · exact h.2 y h1

/-- `argmaxFirst` returns a member that dominates the whole list. -/
theorem argmaxFirst_spec (l : List (Nat × Int)) (x : Nat × Int)
    (h : argmaxFirst l = some x) :
    x ∈ l ∧ ∀ y ∈ l, y.2 ≤ x.2 := by
  match l with
  | [] => cases h
  | z :: zs =>
    have hx : x = zs.foldl (fun best y => if best.2 < y.2 then y else best) z := by
      simpa [argmaxFirst] using h.symm
    subst hx
    refine ⟨foldl_pyMax_mem zs z, fun y hy => ?_⟩
    rcases List.mem_cons.mp hy with h1 | h1
    · subst h1
      exact (foldl_pyMax_ge zs y).1
    · exact (foldl_pyMax_ge zs z).2 y h1

/-- Membership in `valid_bets` is exactly having a recorded numeric bet. -/
theorem mem_validBets (br : BettingRound) (p : Nat) (n : Int) :
    (p, n) ∈ validBets br ↔ p ∈ br.players ∧ br.bets p = some (.num n) := by
  constructor
  · intro h
    obtain ⟨a, ha, hfa⟩ := List.mem_filterMap.mp h
    rcases hb : br.bets a with _ | bv
    · rw [hb] at hfa
      cases hfa
    · rcases bv with m | _
      · rw [hb] at hfa
        have h1 : a = p ∧ m = n := by
          constructor <;> · injection hfa with h2; injection h2
        obtain ⟨rfl, rfl⟩ := h1
        exact ⟨ha, hb⟩
      · rw [hb] at hfa
        cases hfa
  · rintro ⟨hp, hb⟩
    exact List.mem_filterMap.mpr ⟨p, hp, by rw [hb]⟩

/-- C1 (counterexample): the claim that a round in which all players but
one passed (no bet recorded) yields the sole active player as winner is
false.  With players `[0, 1, 2, 3]` and passes from 1, 2 and 3, the round
is complete, player 0 is the sole active player, yet `get_winner` returns
`(None, None)` rather than player 0: the empty `valid_bets` branch wins. -/
theorem claim1_counterexample :
    (isRoundComplete (playerAction (playerAction
        (playerAction (mkBettingRound [0, 1, 2, 3] .grande 1) 1 .pass)
        2 .pass) 3 .pass) = true) ∧
    ((playerAction (playerAction
        (playerAction (mkBettingRound [0, 1, 2, 3] .grande 1) 1 .pass)
        2 .pass) 3 .pass).active 0 = true) ∧
    ((playerAction (playerAction
        (playerAction (mkBettingRound [0, 1, 2, 3] .grande 1) 1 .pass)
        2 .pass) 3 .pass).active 1 = false) ∧
    ((playerAction (playerAction
        (playerAction (mkBettingRound [0, 1, 2, 3] .grande 1) 1 .pass)
        2 .pass) 3 .pass).active 2 = false) ∧
    ((playerAction (playerAction
        (playerAction (mkBettingRound [0, 1, 2, 3] .grande 1) 1 .pass)
        2 .pass) 3 .pass).active 3 = false) ∧
    (getWinner (playerAction (playerAction
        (playerAction (mkBettingRound [0, 1, 2, 3] .grande 1) 1 .pass)
        2 .pass) 3 .pass) = (none, none)) := by
  refine ⟨by decide, by decide, by decide, by decide, by decide, by decide⟩

/-- C1 (amended): a round with at most one active player is complete, but
with no recorded bet at all `get_winner` returns `(None, None)` — the sole
surviving player is *not* returned.  In a round free of the ordago
sentinel and holding at least one recorded bet, `get_winner` returns a
player with a recorded bet that is maximal among **all** recorded bets —
the active flags are never consulted — paired with the final
`current_bet`. -/
theorem claim1_amended (br : BettingRound)
    (hno : ∀ q ∈ br.players, br.bets q ≠ some BetVal.ordago) :
    ((activePlayers br).length ≤ 1 → isRoundComplete br = true) ∧
    ((∀ q ∈ br.players, br.bets q = none) → getWinner br = (none, none)) ∧
    (∀ p ∈ br.players, ∀ n : Int, br.bets p = some (.num n) →
      ∃ w m, w ∈ br.players ∧ br.bets w = some (.num m) ∧
        (∀ q ∈ br.players, ∀ k : Int, br.bets q = some (.num k) → k ≤ m) ∧
        getWinner br = (some w, some (.num br.currentBet))) := by
  have hfind : br.players.find?
      (fun q => decide (br.bets q = some .ordago)) = none := by
    rw [List.find?_eq_none]
    intro q hq
    simpa using hno q hq
  refine ⟨fun h => by simp [isRoundComplete, h], fun hall => ?_, ?_⟩
  · have hvalid : validBets br = [] := by
      rw [validBets, List.filterMap_eq_nil_iff]
      intro q hq
      rw [hall q hq]
    simp [getWinner, hfind, hvalid, argmaxFirst]
  · intro p hp n hn
    have hpv : (p, n) ∈ validBets br := (mem_validBets br p n).mpr ⟨hp, hn⟩
    obtain ⟨x, hx⟩ : ∃ x, argmaxFirst (validBets br) = some x := by
      rcases hv : validBets br with _ | ⟨z, zs⟩
      · rw [hv] at hpv
        cases hpv
      · exact ⟨_, rfl⟩
    obtain ⟨hxmem, hxmax⟩ := argmaxFirst_spec _ x hx
    obtain ⟨hxp, hxb⟩ := (mem_validBets br x.1 x.2).mp hxmem
    refine ⟨x.1, x.2, hxp, hxb, fun q hq k hk => ?_, ?_⟩
    · exact hxmax (q, k) ((mem_validBets br q k).mpr ⟨hq, hk⟩)
    · rw [getWinner, hfind, hx]

/-- Witness for `claim1_amended`: a two-player round in which player 0 has
bet; all three conjuncts are exercised, the third at player 0's recorded
bet of 1. -/
theorem claim1_amended_witness :
    ((activePlayers (playerAction (playerAction
        (mkBettingRound [0, 1] .grande 1) 0 .bet) 1 .pass)).length ≤ 1 →
      isRoundComplete (playerAction (playerAction
        (mkBettingRound [0, 1] .grande 1) 0 .bet) 1 .pass) = true) ∧
    (∃ w m, w ∈ (playerAction (playerAction
          (mkBettingRound [0, 1] .grande 1) 0 .bet) 1 .pass).players ∧
      (playerAction (playerAction (mkBettingRound [0, 1] .grande 1) 0 .bet)
          1 .pass).bets w = some (.num m) ∧
      (∀ q ∈ (playerAction (playerAction
          (mkBettingRound [0, 1] .grande 1) 0 .bet) 1 .pass).players,
        ∀ k : Int, (playerAction (playerAction
          (mkBettingRound [0, 1] .grande 1) 0 .bet) 1 .pass).bets q
            = some (.num k) → k ≤ m) ∧
      getWinner (playerAction (playerAction
          (mkBettingRound [0, 1] .grande 1) 0 .bet) 1 .pass)
        = (some w, some (.num (playerAction (playerAction
            (mkBettingRound [0, 1] .grande 1) 0 .bet) 1 .pass).currentBet))) :=
  ⟨(claim1_amended _ (by decide)).1,
   (claim1_amended _ (by decide)).2.2 0 (by decide) 1 (by decide)⟩

/-- C4: an ordago by an active player records the sentinel as that
player's bet and immediately finishes the round, whatever the other
players' pending bets; `get_winner` then returns that player with outcome
`'ordago'`.  The final conjunct states the precedence in general: whenever
any recorded bet is the sentinel, the outcome of `get_winner` is
`'ordago'`, the highest-bet comparison never being reached. -/
theorem claim4 (br : BettingRound) (player : Nat)
    (hmem : player ∈ br.players) (hact : br.active player = true)
    (hno : ∀ q ∈ br.players, br.bets q ≠ some BetVal.ordago) :
    ((playerAction br player .ordago).finished = true) ∧
    ((playerAction br player .ordago).bets player = some .ordago) ∧
    (getWinner (playerAction br player .ordago)
        = (some player, some .ordago)) ∧
    (∀ br2 : BettingRound, (∃ q ∈ br2.players, br2.bets q = some .ordago) →
      (getWinner br2).2 = some .ordago) := by
  have hbr : playerAction br player .ordago
      = { br with bets := updFn br.bets player (some .ordago)
                  finished := true } := by
    simp [playerAction, hact]
  refine ⟨by rw [hbr], by rw [hbr]; exact updFn_self br.bets player _, ?_, ?_⟩
  · rw [hbr]
    have hfind : br.players.find?
        (fun q => decide (updFn br.bets player (some .ordago) q
          = some .ordago)) = some player := by
      refine find?_eq_some_of_unique hmem ?_ ?_
      · simp [updFn]
      · intro b hb hne
        rw [updFn_ne br.bets player _ hne]
        simpa using hno b hb
    rw [getWinner]
    rw [hfind]
  · intro br2 ⟨q, hq, hbq⟩
    have : ∃ x, br2.players.find?
        (fun r => decide (br2.bets r = some .ordago)) = some x := by
      have h1 : (br2.players.find?
          (fun r => decide (br2.bets r = some .ordago))).isSome := by
        rw [List.find?_isSome]
        exact ⟨q, hq, by simpa using hbq⟩
      exact Option.isSome_iff_exists.mp h1
    obtain ⟨x, hx⟩ := this
    rw [getWinner, hx]

/-- Witness for `claim4`: player 2 of a fresh four-player round declares
ordago. -/
theorem claim4_witness :
    ((playerAction (mkBettingRound [0, 1, 2, 3] .grande 1) 2
        .ordago).finished = true) ∧
    (getWinner (playerAction (mkBettingRound [0, 1, 2, 3] .grande 1) 2
        .ordago) = (some 2, some .ordago)) ∧
    ((getWinner (playerAction (mkBettingRound [0, 1, 2, 3] .grande 1) 2
        .ordago)).2 = some .ordago) := by
  have h := claim4 (mkBettingRound [0, 1, 2, 3] .grande 1) 2 (by decide)
    (by decide) (by decide)
  exact ⟨h.1, h.2.2.1, h.2.2.2 _ ⟨2, by decide,
    by exact (claim4 (mkBettingRound [0, 1, 2, 3] .grande 1) 2 (by decide)
      (by decide) (by decide)).2.1⟩⟩

end Mus

namespace Mus

/-! ## Pares evaluation (`evaluate_pairs`) -/

/-- Membership in the accumulating key fold of `pairsKeys`. -/
theorem mem_foldl_keys (rs : List Rank) (acc : List Rank) (x : Rank) :
    (x ∈ rs.foldl (fun acc r => if r ∈ acc then acc else acc ++ [r]) acc)
      ↔ x ∈ acc ∨ x ∈ rs := by
  induction rs generalizing acc with
  | nil => simp
  | cons r rest ih =>
    simp only [List.foldl_cons]
    rw [ih]
    by_cases hr : r ∈ acc
    · rw [if_pos hr]
      constructor
      · intro h
        rcases h with h | h
        · exact Or.inl h
        · exact Or.inr (List.mem_cons_of_mem r h)
      · intro h
        rcases h with h | h
        · exact Or.inl h
        · rcases List.mem_cons.mp h with rfl | h
          · exact Or.inl hr
          · exact Or.inr h
    · rw [if_neg hr]
      simp [List.mem_append, List.mem_cons, or_assoc]

/-- The Counter key list contains exactly the ranks of the hand. -/
theorem mem_pairsKeys (rs : List Rank) (x : Rank) :
    x ∈ pairsKeys rs ↔ x ∈ rs := by
  simpa using mem_foldl_keys rs [] x

/-- The accumulating key fold preserves freedom from duplicates. -/
theorem nodup_foldl_keys (rs : List Rank) (acc : List Rank)
    (h : acc.Nodup) :
    (rs.foldl (fun acc r => if r ∈ acc then acc else acc ++ [r]) acc).Nodup := by
  induction rs generalizing acc with
  | nil => exact h
  | cons r rest ih =>
    simp only [List.foldl_cons]
    by_cases hr : r ∈ acc
    · rw [if_pos hr]
      exact ih acc h
    · rw [if_neg hr]
      refine ih _ ?_
      rw [List.nodup_append]
      exact ⟨h, List.nodup_singleton r, by simpa using hr⟩

/-- The Counter key list is duplicate-free. -/
theorem nodup_pairsKeys (rs : List Rank) : (pairsKeys rs).Nodup :=
  nodup_foldl_keys rs [] List.nodup_nil

/-- Unfolding of `rcount` over a cons cell. -/
theorem rcount_cons (x : Rank) (xs : List Rank) (r : Rank) :
    rcount (x :: xs) r = (if x = r then 1 else 0) + rcount xs r := by
  by_cases h : x = r <;> simp [rcount, List.filter_cons, h, Nat.add_comm]

/-- A rank with positive multiplicity occurs in the hand. -/
theorem mem_of_rcount_pos {rs : List Rank} {r : Rank}
    (h : 0 < rcount rs r) : r ∈ rs := by
  induction rs with
  | nil => simp [rcount] at h
  | cons x xs ih =>
    rw [rcount_cons] at h
    by_cases hx : x = r
    · exact hx ▸ List.mem_cons_self x xs
    · rw [if_neg hx] at h
      exact List.mem_cons_of_mem x (ih (by omega))

/-- A rank occurring in the hand has positive multiplicity. -/
theorem rcount_pos_of_mem {rs : List Rank} {r : Rank} (h : r ∈ rs) :
    0 < rcount rs r := by
  induction rs with
  | nil => cases h
  | cons x xs ih =>
    rw [rcount_cons]
    rcases List.mem_cons.mp h with rfl | h1
    · simp
    · have := ih h1
      omega

/-- Two distinct ranks cannot jointly exceed the hand size. -/
theorem rcount_pair_le {rs : List Rank} {a b : Rank} (hab : a ≠ b) :
    rcount rs a + rcount rs b ≤ rs.length := by
  induction rs with
  | nil => simp [rcount]
  | cons x xs ih =>
    rw [rcount_cons, rcount_cons, List.length_cons]
    by_cases hxa : x = a
    · rw [if_pos hxa, if_neg (by rw [hxa]; exact hab)]
      omega
    · rw [if_neg hxa]
      by_cases hxb : x = b
      · rw [if_pos hxb]
        omega
      · rw [if_neg hxb]
        omega

/-- Three pairwise distinct ranks cannot jointly exceed the hand size. -/
theorem rcount_triple_le {rs : List Rank} {a b c : Rank}
    (hab : a ≠ b) (hac : a ≠ c) (hbc : b ≠ c) :
    rcount rs a + rcount rs b + rcount rs c ≤ rs.length := by
  induction rs with
  | nil => simp [rcount]
  | cons x xs ih =>
    rw [rcount_cons, rcount_cons, rcount_cons, List.length_cons]
    by_cases hxa : x = a
    · rw [if_pos hxa, if_neg (by rw [hxa]; exact hab),
        if_neg (by rw [hxa]; exact hac)]
      omega
    · rw [if_neg hxa]
      by_cases hxb : x = b
      · rw [if_pos hxb, if_neg (by rw [hxb]; exact hbc)]
        omega
      · rw [if_neg hxb]
        by_cases hxc : x = c
        · rw [if_pos hxc]
          omega
        · rw [if_neg hxc]
          omega

/-- A filter over a duplicate-free list whose predicate holds exactly at
one member is that singleton. -/
theorem filter_eq_singleton_of_unique {α : Type} {p : α → Bool}
    {l : List α} {a : α} (hnd : l.Nodup) (hmem : a ∈ l) (ha : p a = true)
    (huniq : ∀ b ∈ l, p b = true → b = a) :
    l.filter p = [a] := by
  induction l with
  | nil => cases hmem
  | cons x xs ih =>
    obtain ⟨hx, hnd2⟩ := List.nodup_cons.mp hnd
    rcases List.mem_cons.mp hmem with rfl | hmem2
    · rw [List.filter_cons_of_pos ha]
      have hnil : xs.filter p = [] := by
        rw [List.filter_eq_nil_iff]
        intro b hb hpb
        exact hx ((huniq b (List.mem_cons_of_mem a hb) hpb) ▸ hb)
      rw [hnil]
    · have hxa : x ≠ a := fun h => hx (h ▸ hmem2)
      have hpx : ¬p x = true := fun h =>
        hxa (huniq x (List.mem_cons_self x xs) h)
      rw [List.filter_cons_of_neg (by simpa using hpx)]
      exact ih hnd2 hmem2
        (fun b hb h => huniq b (List.mem_cons_of_mem x hb) h)

/-- A filter over a duplicate-free list whose predicate holds exactly at
two distinct members is one of the two orderings of that pair. -/
theorem filter_eq_pair_of_unique {α : Type} {p : α → Bool} {l : List α}
    {a b : α} (hnd : l.Nodup) (hab : a ≠ b) (hma : a ∈ l) (hmb : b ∈ l)
    (hpa : p a = true) (hpb : p b = true)
    (huniq : ∀ c ∈ l, p c = true → c = a ∨ c = b) :
    l.filter p = [a, b] ∨ l.filter p = [b, a] := by
  induction l with
  | nil => cases hma
  | cons x xs ih =>
    obtain ⟨hx, hnd2⟩ := List.nodup_cons.mp hnd
    by_cases hpx : p x = true
    · rcases huniq x (List.mem_cons_self x xs) hpx with rfl | rfl
      · left
        rw [List.filter_cons_of_pos hpx]
        have hmb2 : b ∈ xs := by
          rcases List.mem_cons.mp hmb with h | h
          · exact absurd h.symm hab
          · exact h
        have : xs.filter p = [b] := by
          refine filter_eq_singleton_of_unique hnd2 hmb2 hpb ?_
          intro c hc hpc
          rcases huniq c (List.mem_cons_of_mem x hc) hpc with rfl | rfl
          · exact absurd hc hx
          · rfl
        rw [this]
      · right
        rw [List.filter_cons_of_pos hpx]
        have hma2 : a ∈ xs := by
          rcases List.mem_cons.mp hma with h | h
          · exact absurd h hab
          · exact h
        have : xs.filter p = [a] := by
          refine filter_eq_singleton_of_unique hnd2 hma2 hpa ?_
          intro c hc hpc
          rcases huniq c (List.mem_cons_of_mem x hc) hpc with rfl | rfl
          · rfl
          · exact absurd hc hx
        rw [this]
    · have hxa : a ≠ x := fun h => hpx (h ▸ hpa)
      have hxb : b ≠ x := fun h => hpx (h ▸ hpb)
      have hma2 : a ∈ xs := by
        rcases List.mem_cons.mp hma with h | h
        · exact absurd h hxa
        · exact h
      have hmb2 : b ∈ xs := by
        rcases List.mem_cons.mp hmb with h | h
        · exact absurd h hxb
        · exact h
      rw [List.filter_cons_of_neg (by simpa using hpx)]
      exact ih hnd2 hma2 hmb2
        (fun c hc h => huniq c (List.mem_cons_of_mem x hc) h)

/-- `sorted([x, y], reverse=True)` is the descending arrangement. -/
theorem sortDesc_pair (x y : Nat) :
    sortDesc [x, y] = [Nat.max x y, Nat.min x y] := by
  rcases Nat.le_total y x with h | h
  · simp [sortDesc, insertDesc, h, Nat.max_eq_left h, Nat.min_eq_right h]
  · rcases Nat.eq_or_lt_of_le h with rfl | h2
    · simp [sortDesc, insertDesc]
    · have h3 : ¬y ≤ x := by omega
      simp [sortDesc, insertDesc, h3, Nat.max_eq_right h,
        Nat.min_eq_left (Nat.le_of_lt h2)]

end Mus

namespace Mus

/-- Four-of-a-kind: the quads list is the singleton of the repeated rank,
and the evaluation is `(3, order)`. -/
theorem pairsRanks_quad {rs : List Rank} {a : Rank} (hlen : rs.length = 4)
    (ha : rcount rs a = 4) : pairsRanks rs = [3, ORDER a] := by
  have hq : quadsOf rs = [a] := by
    refine filter_eq_singleton_of_unique (nodup_pairsKeys rs)
      ((mem_pairsKeys rs a).mpr (mem_of_rcount_pos (by omega))) (by simp [ha])
      ?_
    intro b _ hpb
    by_contra hne
    have h1 : rcount rs b = 4 := by simpa using hpb
    have h2 := @rcount_pair_le rs _ _ (Ne.symm hne)
    omega
  unfold pairsRanks
  rw [hq]

/-- Three-of-a-kind: the quads list is empty, the triples list is the
singleton of the repeated rank, and the evaluation is `(2, order)`. -/
theorem pairsRanks_triple {rs : List Rank} {a : Rank} (hlen : rs.length = 4)
    (ha : rcount rs a = 3) : pairsRanks rs = [2, ORDER a] := by
  have hother : ∀ b : Rank, b ≠ a → rcount rs b ≤ 1 := by
    intro b hne
    have := @rcount_pair_le rs _ _ hne
    omega
  have hq : quadsOf rs = [] := by
    rw [quadsOf, List.filter_eq_nil_iff]
    intro b _
    by_cases hb : b = a
    · simp [hb, ha]
    · have := hother b hb
      simp
      omega
  have ht : triplesOf rs = [a] := by
    refine filter_eq_singleton_of_unique (nodup_pairsKeys rs)
      ((mem_pairsKeys rs a).mpr (mem_of_rcount_pos (by omega))) (by simp [ha])
      ?_
    intro b _ hpb
    by_contra hne
    have h1 : rcount rs b = 3 := by simpa using hpb
    have := hother b hne
    omega
  unfold pairsRanks
  rw [hq, ht]

/-- Two distinct pairs: quads and triples are empty, the pairs list is the
two ranks in some order, and the evaluation is `(3, hi, lo)`. -/
theorem pairsRanks_two_pairs {rs : List Rank} {a b : Rank}
    (hlen : rs.length = 4) (hab : a ≠ b) (ha : rcount rs a = 2)
    (hb : rcount rs b = 2) :
    pairsRanks rs = [3, Nat.max (ORDER a) (ORDER b),
      Nat.min (ORDER a) (ORDER b)] := by
  have hother : ∀ c : Rank, c ≠ a → c ≠ b → rcount rs c = 0 := by
    intro c hca hcb
    have := @rcount_triple_le rs _ _ _ hab (Ne.symm hca) (Ne.symm hcb)
    omega
  have hkmem : ∀ c ∈ pairsKeys rs, c = a ∨ c = b := by
    intro c hc
    by_contra hcc
    push_neg at hcc
    have h1 := rcount_pos_of_mem ((mem_pairsKeys rs c).mp hc)
    have h2 := hother c hcc.1 hcc.2
    omega
  have hq : quadsOf rs = [] := by
    rw [quadsOf, List.filter_eq_nil_iff]
    intro c hc
    rcases hkmem c hc with rfl | rfl <;> simp [ha, hb]
  have ht : triplesOf rs = [] := by
    rw [triplesOf, List.filter_eq_nil_iff]
    intro c hc
    rcases hkmem c hc with rfl | rfl <;> simp [ha, hb]
  have hp : pairsOf rs = [a, b] ∨ pairsOf rs = [b, a] := by
    refine filter_eq_pair_of_unique (nodup_pairsKeys rs) hab
      ((mem_pairsKeys rs a).mpr (mem_of_rcount_pos (by omega)))
      ((mem_pairsKeys rs b).mpr (mem_of_rcount_pos (by omega)))
      (by simp [ha]) (by simp [hb]) ?_
    intro c hc _
    exact hkmem c hc
  unfold pairsRanks
  rw [hq, ht]
  rcases hp with hp | hp
  · rw [hp]
    simp [sortDesc_pair]
  · rw [hp]
    simp [sortDesc_pair, Nat.max_comm, Nat.min_comm]

/-- Exactly one pair: quads and triples are empty, the pairs list is the
singleton of the paired rank, and the evaluation is `(1, order)`. -/
theorem pairsRanks_single_pair {rs : List Rank} {a : Rank}
    (ha : rcount rs a = 2) (hother : ∀ b : Rank, b ≠ a → rcount rs b ≤ 1) :
    pairsRanks rs = [1, ORDER a] := by
  have hq : quadsOf rs = [] := by
    rw [quadsOf, List.filter_eq_nil_iff]
    intro b _
    by_cases hb : b = a
    · simp [hb, ha]
    · have := hother b hb
      simp
      omega
  have ht : triplesOf rs = [] := by
    rw [triplesOf, List.filter_eq_nil_iff]
    intro b _
    by_cases hb : b = a
    · simp [hb, ha]
    · have := hother b hb
      simp
      omega
  have hp : pairsOf rs = [a] := by
    refine filter_eq_singleton_of_unique (nodup_pairsKeys rs)
      ((mem_pairsKeys rs a).mpr (mem_of_rcount_pos (by omega))) (by simp [ha])
      ?_
    intro b _ hpb
    by_contra hne
    have h1 : rcount rs b = 2 := by simpa using hpb
    have := hother b hne
    omega
  unfold pairsRanks
  rw [hq, ht, hp]

/-- No repeated rank: all three multiplicity lists are empty and the
evaluation is `(0,)`. -/
theorem pairsRanks_none {rs : List Rank}
    (h : ∀ r : Rank, rcount rs r ≤ 1) : pairsRanks rs = [0] := by
  have hq : quadsOf rs = [] := by
    rw [quadsOf, List.filter_eq_nil_iff]
    intro b _
    have := h b
    simp
    omega
  have ht : triplesOf rs = [] := by
    rw [triplesOf, List.filter_eq_nil_iff]
    intro b _
    have := h b
    simp
    omega
  have hp : pairsOf rs = [] := by
    rw [pairsOf, List.filter_eq_nil_iff]
    intro b _
    have := h b
    simp
    omega
  unfold pairsRanks
  rw [hq, ht, hp]

/-- C5: `evaluate_pairs` categorizes every 4-card hand by its rank
multiplicities — four-of-a-kind gives category 3 (with the quad's order as
payload), two distinct pairs give category 3 with the two pair orders
sorted descending, a triple gives category 2 with the repeated order, a
single pair category 1 with the repeated order, and no repetition category
0; and on the scenario hands, `[King, King, Jack, Jack]` evaluates to
`(3, 9, 7)`, `[King, King, Seven, Four]` to `(1, 9)`, with the former
strictly greater under the Python tuple comparison. -/
theorem claim5 :
    (∀ c1 c2 c3 c4 : Card,
      (∀ a : Rank, rcount ([c1, c2, c3, c4].map Card.rank) a = 4 →
        evaluate_pairs [c1, c2, c3, c4] = [3, ORDER a]) ∧
      (∀ a b : Rank, a ≠ b →
        rcount ([c1, c2, c3, c4].map Card.rank) a = 2 →
        rcount ([c1, c2, c3, c4].map Card.rank) b = 2 →
        evaluate_pairs [c1, c2, c3, c4]
          = [3, Nat.max (ORDER a) (ORDER b), Nat.min (ORDER a) (ORDER b)]) ∧
      (∀ a : Rank, rcount ([c1, c2, c3, c4].map Card.rank) a = 3 →
        evaluate_pairs [c1, c2, c3, c4] = [2, ORDER a]) ∧
      (∀ a : Rank, rcount ([c1, c2, c3, c4].map Card.rank) a = 2 →
        (∀ b : Rank, b ≠ a → rcount ([c1, c2, c3, c4].map Card.rank) b ≤ 1) →
        evaluate_pairs [c1, c2, c3, c4] = [1, ORDER a]) ∧
      ((∀ a : Rank, rcount ([c1, c2, c3, c4].map Card.rank) a ≤ 1) →
        evaluate_pairs [c1, c2, c3, c4] = [0])) ∧
    evaluate_pairs handKKJJ = [3, 9, 7] ∧
    evaluate_pairs handKK74 = [1, 9] ∧
    pyLt (evaluate_pairs handKK74) (evaluate_pairs handKKJJ) = true := by
  refine ⟨fun c1 c2 c3 c4 => ?_, by decide, by decide, by decide⟩
  have hlen : ([c1, c2, c3, c4].map Card.rank).length = 4 := by simp
  exact ⟨fun a ha => pairsRanks_quad hlen ha,
    fun a b hab ha hb => pairsRanks_two_pairs hlen hab ha hb,
    fun a ha => pairsRanks_triple hlen ha,
    fun a ha hother => pairsRanks_single_pair ha hother,
    fun h => pairsRanks_none h⟩

/-- Witness for `claim5`: each branch exercised on a concrete hand —
four kings, kings over threes, three kings, the scenario pair hand, and a
hand of four distinct ranks. -/
theorem claim5_witness :
    evaluate_pairs [Card.mk .king .oros, Card.mk .king .copas,
        Card.mk .king .espadas, Card.mk .king .bastos] = [3, ORDER .king] ∧
    evaluate_pairs [Card.mk .king .oros, Card.mk .three .oros,
        Card.mk .king .copas, Card.mk .three .copas]
      = [3, Nat.max (ORDER .king) (ORDER .three),
          Nat.min (ORDER .king) (ORDER .three)] ∧
    evaluate_pairs [Card.mk .king .oros, Card.mk .king .copas,
        Card.mk .king .espadas, Card.mk .ace .bastos] = [2, ORDER .king] ∧
    evaluate_pairs handKK74 = [1, ORDER .king] ∧
    evaluate_pairs [Card.mk .king .oros, Card.mk .jack .copas,
        Card.mk .seven .espadas, Card.mk .four .bastos] = [0] :=
  ⟨(claim5.1 _ _ _ _).1 .king (by decide),
   (claim5.1 _ _ _ _).2.1 .king .three (by decide) (by decide) (by decide),
   (claim5.1 _ _ _ _).2.2.1 .king (by decide),
   (claim5.1 _ _ _ _).2.2.2.1 .king (by decide) (by decide),
   (claim5.1 _ _ _ _).2.2.2.2 (by decide)⟩

end Mus

namespace Mus

/-! ## Juego evaluation (`evaluate_juego`) -/

/-- Among the qualifying totals, an earlier position in the ranking table
beats a later one under the Python tuple comparison. -/
theorem juegoOfSum_chain (s1 s2 : Nat) (h1 : s1 ∈ juegoTable)
    (h2 : s2 ∈ juegoTable)
    (hidx : idxIn juegoTable s1 < idxIn juegoTable s2) :
    pyLt (juegoOfSum s2) (juegoOfSum s1) = true := by
  fin_cases h1 <;> fin_cases h2 <;> revert hidx <;> decide

/-- Any qualifying total beats any non-qualifying total. -/
theorem juegoOfSum_qualifying_beats (s1 s2 : Nat) (h1 : 31 ≤ s1)
    (h2 : s2 < 31) : pyLt (juegoOfSum s2) (juegoOfSum s1) = true := by
  rw [juegoOfSum, juegoOfSum, if_pos h1, if_neg (by omega)]
  simp [pyLt]

/-- Two non-qualifying totals compare exactly by the raw sums. -/
theorem juegoOfSum_below (s1 s2 : Nat) (h1 : s1 < 31) (h2 : s2 < 31) :
    pyLt (juegoOfSum s1) (juegoOfSum s2) = decide (s1 < s2) := by
  rw [juegoOfSum, juegoOfSum, if_neg (by omega), if_neg (by omega)]
  rcases Nat.lt_trichotomy s1 s2 with h | h | h
  · simp [pyLt, h]
  · subst h
    simp [pyLt]
  · have h3 : ¬s1 < s2 := by omega
    simp [pyLt, h, h3]

/-- C6: under the Python tuple comparison on `evaluate_juego` results,
qualifying totals rank strictly in the order 31, 32, 40, 37, 36, 35, 34,
33 (strongest first); any hand summing at least 31 strictly outranks any
hand summing below 31; and two hands summing below 31 compare exactly by
their raw sums. -/
theorem claim6 (h1 h2 : List Card) :
    (valueSum h1 ∈ juegoTable → valueSum h2 ∈ juegoTable →
      idxIn juegoTable (valueSum h1) < idxIn juegoTable (valueSum h2) →
      pyLt (evaluate_juego h2) (evaluate_juego h1) = true) ∧
    (31 ≤ valueSum h1 → valueSum h2 < 31 →
      pyLt (evaluate_juego h2) (evaluate_juego h1) = true) ∧
    (valueSum h1 < 31 → valueSum h2 < 31 →
      pyLt (evaluate_juego h1) (evaluate_juego h2)
        = decide (valueSum h1 < valueSum h2)) :=
  ⟨fun m1 m2 hidx => juegoOfSum_chain (valueSum h1) (valueSum h2) m1 m2 hidx,
   fun ha hb => juegoOfSum_qualifying_beats (valueSum h1) (valueSum h2) ha hb,
   fun ha hb => juegoOfSum_below (valueSum h1) (valueSum h2) ha hb⟩

/-- Witness for `claim6`: 31 beats 32 (table positions 0 and 1), 31 beats
a 30-total hand, and two non-qualifying hands (sums 20 and 30) compare by
raw sum. -/
theorem claim6_witness :
    pyLt (evaluate_juego handSum32) (evaluate_juego handSum31) = true ∧
    pyLt (evaluate_juego handSum30) (evaluate_juego handSum31) = true ∧
    pyLt (evaluate_juego handSum20) (evaluate_juego handSum30)
      = decide (valueSum handSum20 < valueSum handSum30) :=
  ⟨(claim6 handSum31 handSum32).1 (by decide) (by decide) (by decide),
   (claim6 handSum31 handSum30).2.1 (by decide) (by decide),
   (claim6 handSum20 handSum30).2.2 (by decide) (by decide)⟩

end Mus

namespace Mus

/-! ## Card conservation -/

/-- `getD` after `set` at the same (in-range) position reads the new
value. -/
theorem getD_set_self {α : Type} (l : List α) (p : Nat) (a d : α)
    (hp : p < l.length) : (l.set p a).getD p d = a := by
  induction l generalizing p with
  | nil => simp at hp
  | cons x xs ih =>
    cases p with
    | zero => rfl
    | succ q =>
      simp only [List.set_cons_succ, List.getD_cons_succ]
      exact ih q (by simpa using hp)

/-- `getD` after `set` at a different position is unchanged. -/
theorem getD_set_ne {α : Type} (l : List α) (p q : Nat) (a d : α)
    (h : q ≠ p) : (l.set p a).getD q d = l.getD q d := by
  induction l generalizing p q with
  | nil => rfl
  | cons x xs ih =>
    cases p with
    | zero =>
      cases q with
      | zero => exact absurd rfl h
      | succ j => simp [List.getD_cons_succ]
    | succ i =>
      cases q with
      | zero => rfl
      | succ j =>
        simp only [List.set_cons_succ, List.getD_cons_succ]
        exact ih i j (fun hh => h (by rw [hh]))

/-- Replacing one hand changes the total hand size by the difference of
the two hands (stated addition-only). -/
theorem sum_lengths_set (l : List (List Card)) (p : Nat) (a : List Card)
    (hp : p < l.length) :
    ((l.set p a).map List.length).sum + (l.getD p []).length
      = (l.map List.length).sum + a.length := by
  induction l generalizing p with
  | nil => simp at hp
  | cons x xs ih =>
    cases p with
    | zero =>
      simp only [List.set_cons_zero, List.map_cons, List.sum_cons,
        List.getD_cons_zero]
      omega
    | succ q =>
      simp only [List.set_cons_succ, List.map_cons, List.sum_cons,
        List.getD_cons_succ]
      have := ih q (by simpa using hp)
      omega

/-- A filter and its complement partition the length of a list. -/
theorem length_filter_partition {α : Type} (l : List α) (pr : α → Bool) :
    (l.filter pr).length + (l.filter (fun x => !(pr x))).length
      = l.length := by
  induction l with
  | nil => rfl
  | cons x xs ih =>
    by_cases h : pr x = true <;> simp [List.filter_cons, h] <;> omega

/-- The kept and discarded cards of a discard action partition the hand. -/
theorem kept_discarded_length (hand : List Card) (idxs : List Nat) :
    (discardedOf hand idxs).length + (keptOf hand idxs).length
      = hand.length := by
  unfold keptOf discardedOf
  rw [List.length_map, List.length_map, length_filter_partition]
  simp

/-- `draw_from_deck` touches only the deck and the discard pile. -/
theorem drawFromDeck_proj (shuffle : List Card → List Card) (g : MusGame)
    (n : Nat) :
    (drawFromDeck shuffle g n).2.hands = g.hands ∧
    (drawFromDeck shuffle g n).2.scores0 = g.scores0 ∧
    (drawFromDeck shuffle g n).2.scores1 = g.scores1 ∧
    (drawFromDeck shuffle g n).2.targetScore = g.targetScore := by
  unfold drawFromDeck
  by_cases hc : g.deck.cards.length < n <;> simp [hc]

/-- `draw_from_deck` conserves cards: the new total plus the number of
dealt cards equals the old total (the reshuffle is a permutation, hence
length-preserving). -/
theorem drawFromDeck_total (shuffle : List Card → List Card)
    (hs : ∀ l, (shuffle l).length = l.length) (g : MusGame) (n : Nat) :
    totalCards (drawFromDeck shuffle g n).2
        + (drawFromDeck shuffle g n).1.length
      = totalCards g := by
  unfold drawFromDeck totalCards Deck.deal
  by_cases hc : g.deck.cards.length < n <;> simp [hc, hs] <;> omega

end Mus

namespace Mus

/-- The discard state manipulation conserves cards whenever the kept and
discarded lists partition the player's hand. -/
theorem performDiscardAux_total (shuffle : List Card → List Card)
    (hs : ∀ l, (shuffle l).length = l.length) (g : MusGame) (p : Nat)
    (kept discarded : List Card) (hp : p < g.hands.length)
    (hlen : discarded.length + kept.length = (g.hands.getD p []).length) :
    totalCards (performDiscardAux shuffle g p kept discarded)
      = totalCards g := by
  have hdr := drawFromDeck_total shuffle hs
    { g with hands := g.hands.set p kept } discarded.length
  have hh := (drawFromDeck_proj shuffle
    { g with hands := g.hands.set p kept } discarded.length).1
  have hA := sum_lengths_set (g.hands.set p kept) p
    (kept ++ (drawFromDeck shuffle { g with hands := g.hands.set p kept }
      discarded.length).1) (by simpa using hp)
  have hB := sum_lengths_set g.hands p kept hp
  have hgd : (g.hands.set p kept).getD p [] = kept :=
    getD_set_self g.hands p kept [] hp
  rw [hgd] at hA
  unfold totalCards at hdr
  unfold performDiscardAux totalCards
  dsimp only at hdr ⊢
  rw [hh] at hdr ⊢
  dsimp only at hdr ⊢
  simp only [List.length_append] at hA ⊢
  omega

/-- `perform_discard` conserves the total card count. -/
theorem performDiscard_total (shuffle : List Card → List Card)
    (hs : ∀ l, (shuffle l).length = l.length) (g : MusGame) (p : Nat)
    (idxs : List Nat) (hp : p < g.hands.length) :
    totalCards (performDiscard shuffle g p idxs) = totalCards g := by
  unfold performDiscard
  exact performDiscardAux_total shuffle hs g p _ _ hp
    (kept_discarded_length (g.hands.getD p []) idxs)

/-- `perform_discard` does not change the number of players' hands. -/
theorem performDiscard_hands_length (shuffle : List Card → List Card)
    (g : MusGame) (p : Nat) (idxs : List Nat) :
    (performDiscard shuffle g p idxs).hands.length = g.hands.length := by
  unfold performDiscard performDiscardAux
  rw [List.length_set]
  rw [(drawFromDeck_proj shuffle _ _).1]
  dsimp only
  rw [List.length_set]

end Mus

namespace Mus

/-- One dealing-loop iteration conserves cards when the target hand is
still empty. -/
theorem dealStep_total (shuffle : List Card → List Card)
    (hs : ∀ l, (shuffle l).length = l.length) (s : MusGame) (p : Nat)
    (hp : p < s.hands.length) (hemp : s.hands.getD p [] = []) :
    totalCards (dealStep shuffle s p) = totalCards s := by
  have hdr := drawFromDeck_total shuffle hs s 4
  have hh := (drawFromDeck_proj shuffle s 4).1
  have hA := sum_lengths_set s.hands p (drawFromDeck shuffle s 4).1 hp
  rw [hemp] at hA
  simp only [List.length_nil] at hA
  unfold totalCards at hdr
  unfold dealStep totalCards
  dsimp only
  rw [hh] at hdr ⊢
  omega

/-- One dealing-loop iteration keeps the number of hands. -/
theorem dealStep_hands_length (shuffle : List Card → List Card)
    (s : MusGame) (p : Nat) :
    (dealStep shuffle s p).hands.length = s.hands.length := by
  unfold dealStep
  dsimp only
  rw [List.length_set, (drawFromDeck_proj shuffle s 4).1]

/-- One dealing-loop iteration leaves the other hands untouched. -/
theorem dealStep_getD_ne (shuffle : List Card → List Card) (s : MusGame)
    (p q : Nat) (h : q ≠ p) :
    (dealStep shuffle s p).hands.getD q [] = s.hands.getD q [] := by
  unfold dealStep
  dsimp only
  rw [(drawFromDeck_proj shuffle s 4).1]
  exact getD_set_ne s.hands p q _ [] h

/-- The dealing loop conserves cards when it deals into pairwise distinct,
still-empty hands. -/
theorem foldl_dealStep_total (shuffle : List Card → List Card)
    (hs : ∀ l, (shuffle l).length = l.length) :
    ∀ (ps : List Nat) (g : MusGame), ps.Nodup →
      (∀ q ∈ ps, q < g.hands.length ∧ g.hands.getD q [] = []) →
      totalCards (ps.foldl (dealStep shuffle) g) = totalCards g ∧
      (ps.foldl (dealStep shuffle) g).hands.length = g.hands.length := by
  intro ps
  induction ps with
  | nil => exact fun g _ _ => ⟨rfl, rfl⟩
  | cons p rest ih =>
    intro g hnd hq
    obtain ⟨hpnot, hrest⟩ := List.nodup_cons.mp hnd
    obtain ⟨hplt, hpemp⟩ := hq p (List.mem_cons_self p rest)
    simp only [List.foldl_cons]
    have hstep_t := dealStep_total shuffle hs g p hplt hpemp
    have hstep_l := dealStep_hands_length shuffle g p
    have hcond : ∀ q ∈ rest, q < (dealStep shuffle g p).hands.length ∧
        (dealStep shuffle g p).hands.getD q [] = [] := by
      intro q hqr
      obtain ⟨hlt, hemp⟩ := hq q (List.mem_cons_of_mem p hqr)
      have hne : q ≠ p := fun h => hpnot (h ▸ hqr)
      exact ⟨by rw [hstep_l]; exact hlt,
        by rw [dealStep_getD_ne shuffle g p q hne]; exact hemp⟩
    obtain ⟨ht, hl⟩ := ih (dealStep shuffle g p) hrest hcond
    exact ⟨by rw [ht, hstep_t], by rw [hl, hstep_l]⟩

/-- Every position of a list of empty hands reads empty. -/
theorem getD_replicate_nil :
    ∀ (n q : Nat), (List.replicate n ([] : List Card)).getD q [] = [] := by
  intro n
  induction n with
  | zero => intro q; cases q <;> rfl
  | succ m ih =>
    intro q
    cases q with
    | zero => rfl
    | succ j => exact ih j

/-- A freshly constructed game carries exactly the 40 cards of the deck. -/
theorem mkMusGame_total (shuffle : List Card → List Card)
    (hs : ∀ l, (shuffle l).length = l.length) (n : Nat) (T : Int) :
    totalCards (mkMusGame shuffle n T) = 40 := by
  have h40 : fullDeck.length = 40 := by decide
  unfold totalCards mkMusGame
  dsimp only
  rw [hs, h40]
  simp [List.map_replicate, List.sum_replicate]

/-- `initial_deal` conserves cards on a game whose hands are all empty. -/
theorem initialDeal_total (shuffle : List Card → List Card)
    (hs : ∀ l, (shuffle l).length = l.length) (g : MusGame)
    (hnp : g.hands.length = g.numPlayers)
    (hemp : ∀ q, g.hands.getD q [] = []) :
    totalCards (initialDeal shuffle g) = totalCards g ∧
    (initialDeal shuffle g).hands.length = g.hands.length := by
  have h := foldl_dealStep_total shuffle hs (List.range g.numPlayers) g
    (List.nodup_range g.numPlayers)
    (fun q hq => ⟨by rw [hnp]; exact List.mem_range.mp hq, hemp q⟩)
  exact h

/-- The per-operation invariant step: every state along a trace of
discard operations by in-range players keeps the 40-card total. -/
theorem statesFrom_total (shuffle : List Card → List Card)
    (hs : ∀ l, (shuffle l).length = l.length) :
    ∀ (ops : List MusOp) (g : MusGame),
      (∀ op ∈ ops, op.player < g.hands.length) → totalCards g = 40 →
      ∀ st ∈ statesFrom shuffle g ops, totalCards st = 40 := by
  intro ops
  induction ops with
  | nil =>
    intro g _ ht st hst
    simp only [statesFrom, List.mem_singleton] at hst
    rw [hst]
    exact ht
  | cons op rest ih =>
    intro g hops ht st hst
    simp only [statesFrom] at hst
    rcases List.mem_cons.mp hst with rfl | hst2
    · exact ht
    · rcases op with ⟨p, idxs⟩
      have hp : p < g.hands.length := hops _ (List.mem_cons_self _ _)
      have ht2 : totalCards (applyOp shuffle g (.discardOp p idxs)) = 40 := by
        unfold applyOp
        rw [performDiscard_total shuffle hs g p idxs hp]
        exact ht
      have hlen2 : (applyOp shuffle g (.discardOp p idxs)).hands.length
          = g.hands.length := performDiscard_hands_length shuffle g p idxs
      exact ih _ (fun op2 hop2 => by
          rw [hlen2]
          exact hops op2 (List.mem_cons_of_mem _ hop2)) ht2 st hst2

/-- C2: along any partial game — construction, initial deal, then any
sequence of discard-and-redraw operations by in-range players, with the
reshuffle-on-shortage rule applied inside every draw — the quantity
`|deck| + |discard pile| + Σ|hands|` equals 40 at every observation
point. -/
theorem claim2 (shuffle : List Card → List Card)
    (hs : ∀ l : List Card, List.Perm (shuffle l) l) (n : Nat) (T : Int)
    (ops : List MusOp) (hops : ∀ op ∈ ops, op.player < n) :
    ∀ st ∈ statesFrom shuffle
        (initialDeal shuffle (mkMusGame shuffle n T)) ops,
      totalCards st = 40 := by
  have hlen : ∀ l : List Card, (shuffle l).length = l.length :=
    fun l => (hs l).length_eq
  have h0 : totalCards (mkMusGame shuffle n T) = 40 :=
    mkMusGame_total shuffle hlen n T
  have hdl := initialDeal_total shuffle hlen (mkMusGame shuffle n T)
    (by simp [mkMusGame]) (fun q => getD_replicate_nil n q)
  apply statesFrom_total shuffle hlen ops _ ?_ (by rw [hdl.1, h0])
  intro op hop
  rw [hdl.2]
  simpa [mkMusGame] using hops op hop

/-- Witness for `claim2`: the identity shuffle, four players, one discard
of cards 0 and 2 by player 0; the state after the operation still totals
40 cards. -/
theorem claim2_witness :
    totalCards (applyOp id (initialDeal id (mkMusGame id 4 40))
      (.discardOp 0 [0, 2])) = 40 :=
  claim2 id (fun l => List.Perm.refl l) 4 40 [.discardOp 0 [0, 2]]
    (by decide) _ (by simp [statesFrom])

end Mus

namespace Mus

/-! ## Ordago short-circuit in the play phase -/

/-- The team order totals depend only on the player count, the mano, and
the hands. -/
theorem teamOrderSum_congr (gA gB : MusGame)
    (hn : gA.numPlayers = gB.numPlayers) (hm : gA.mano = gB.mano)
    (hh : gA.hands = gB.hands) :
    teamOrderSum0 gA = teamOrderSum0 gB ∧
    teamOrderSum1 gA = teamOrderSum1 gB := by
  unfold teamOrderSum0 teamOrderSum1 team0List team1List isTeam0
  rw [hn, hm, hh]
  exact ⟨rfl, rfl⟩

/-- `score_round` leaves the recorded play results and the target score
unchanged. -/
theorem scoreRound_proj (g : MusGame) :
    (scoreRound g).playResults = g.playResults ∧
    (scoreRound g).targetScore = g.targetScore ∧
    (scoreRound g).numPlayers = g.numPlayers := by
  unfold scoreRound resolveOrdago
  split <;> exact ⟨rfl, rfl, rfl⟩

/-- The ordago branch of `score_round`: the full target score goes to the
strictly higher order-sum team, and an exact tie changes neither score. -/
theorem scoreRound_ordago (g : MusGame) (hord : g.ordagoActive = true) :
    (teamOrderSum1 g < teamOrderSum0 g →
      (scoreRound g).scores0 = g.scores0 + g.targetScore ∧
      (scoreRound g).scores1 = g.scores1) ∧
    (teamOrderSum0 g < teamOrderSum1 g →
      (scoreRound g).scores1 = g.scores1 + g.targetScore ∧
      (scoreRound g).scores0 = g.scores0) ∧
    (teamOrderSum0 g = teamOrderSum1 g →
      (scoreRound g).scores0 = g.scores0 ∧
      (scoreRound g).scores1 = g.scores1) := by
  obtain ⟨ht0, ht1⟩ := teamOrderSum_congr { g with handsRevealed := true } g
    rfl rfl rfl
  unfold scoreRound resolveOrdago
  dsimp only
  rw [ht0, ht1, hord, if_pos rfl]
  refine ⟨fun h => ?_, fun h => ?_, fun h => ?_⟩
  · rw [if_pos h]
    exact ⟨by simp, by simp⟩
  · rw [if_neg (by omega), if_pos h]
    exact ⟨by simp, by simp⟩
  · rw [if_neg (by omega), if_neg (by omega)]
    exact ⟨by simp, by simp⟩

/-- The category loop leaves scores, target, hands, mano, player count
and turn order unchanged. -/
theorem playLoop_preserves (scripts : PlayType → List (Nat × BAction)) :
    ∀ (cs : List PlayType) (g : MusGame),
      (playLoop scripts g cs).scores0 = g.scores0 ∧
      (playLoop scripts g cs).scores1 = g.scores1 ∧
      (playLoop scripts g cs).targetScore = g.targetScore ∧
      (playLoop scripts g cs).hands = g.hands ∧
      (playLoop scripts g cs).mano = g.mano ∧
      (playLoop scripts g cs).numPlayers = g.numPlayers ∧
      (playLoop scripts g cs).turnOrder = g.turnOrder := by
  intro cs
  induction cs with
  | nil => exact fun g => ⟨rfl, rfl, rfl, rfl, rfl, rfl, rfl⟩
  | cons play rest ih =>
    intro g
    unfold playLoop runDetailedBettingRound
    dsimp only
    split
    · split
      · exact ⟨rfl, rfl, rfl, rfl, rfl, rfl, rfl⟩
      · rename_i hcon
        exact absurd rfl hcon
    · split
      · exact ⟨rfl, rfl, rfl, rfl, rfl, rfl, rfl⟩
      · obtain ⟨a1, a2, a3, a4, a5, a6, a7⟩ := ih _
        exact ⟨by rw [a1], by rw [a2], by rw [a3], by rw [a4], by rw [a5],
          by rw [a6], by rw [a7]⟩

/-- The category loop with a first ordago at category `c`: the recorded
results are exactly the categories before `c` (with their non-ordago
outcomes) followed by `c`'s ordago outcome, nothing further runs, and the
ordago flag is set. -/
theorem playLoop_ordago (scripts : PlayType → List (Nat × BAction)) :
    ∀ (cs1 : List PlayType) (c : PlayType) (cs2 : List PlayType)
      (g : MusGame), g.ordagoActive = false →
      (∀ c2 ∈ cs1,
        (roundOutcome g.turnOrder scripts c2).2 ≠ some BetVal.ordago) →
      (roundOutcome g.turnOrder scripts c).2 = some BetVal.ordago →
      (playLoop scripts g (cs1 ++ c :: cs2)).playResults
          = g.playResults
            ++ cs1.map (fun c2 => (c2, roundOutcome g.turnOrder scripts c2))
            ++ [(c, roundOutcome g.turnOrder scripts c)] ∧
      (playLoop scripts g (cs1 ++ c :: cs2)).ordagoActive = true := by
  intro cs1
  induction cs1 with
  | nil =>
    intro c cs2 g hord _ hc
    simp only [roundOutcome] at hc ⊢
    simp only [List.nil_append]
    unfold playLoop runDetailedBettingRound
    dsimp only
    rw [if_pos hc]
    dsimp only
    rw [if_pos rfl]
    exact ⟨by simp, rfl⟩
  | cons c2 rest ih =>
    intro c cs2 g hord hpre hc
    have hc2 := hpre c2 (List.mem_cons_self c2 rest)
    simp only [roundOutcome] at hc2 hc ⊢
    simp only [List.cons_append]
    unfold playLoop runDetailedBettingRound
    dsimp only
    rw [if_neg hc2]
    dsimp only
    rw [if_neg (by simp [hord])]
    have hih := ih c cs2
      { g with playResults := g.playResults
          ++ [(c2, getWinner (runActions (mkBettingRound g.turnOrder c2 1)
                (scripts c2)))] }
      hord (fun c3 h3 => hpre c3 (List.mem_cons_of_mem c2 h3)) hc
    simp only [roundOutcome] at hih
    refine ⟨?_, hih.2⟩
    rw [hih.1]
    simp [List.append_assoc]

end Mus

namespace Mus

/-- C3: when the betting round of category `c` is the first to resolve as
ordago, `start_play_phase` records exactly the categories played up to and
including `c` — the remaining categories are never evaluated — and the
scoring awards the full target score to the team with the strictly larger
order total over all hands, while an exact tie changes neither score. -/
theorem claim3 (scripts : PlayType → List (Nat × BAction)) (g : MusGame)
    (cs1 : List PlayType) (c : PlayType) (cs2 : List PlayType)
    (hcats : cs1 ++ c :: cs2
      = [PlayType.grande, PlayType.chica, PlayType.pares, PlayType.juego])
    (hord : g.ordagoActive = false)
    (hpre : ∀ c2 ∈ cs1,
      (roundOutcome g.turnOrder scripts c2).2 ≠ some BetVal.ordago)
    (hc : (roundOutcome g.turnOrder scripts c).2 = some BetVal.ordago) :
    ((startPlayPhase scripts g).playResults
        = cs1.map (fun c2 => (c2, roundOutcome g.turnOrder scripts c2))
          ++ [(c, roundOutcome g.turnOrder scripts c)]) ∧
    (∀ c2 ∈ cs2, ∀ r, (c2, r) ∉ (startPlayPhase scripts g).playResults) ∧
    (teamOrderSum1 g < teamOrderSum0 g →
      (startPlayPhase scripts g).scores0 = g.scores0 + g.targetScore ∧
      (startPlayPhase scripts g).scores1 = g.scores1) ∧
    (teamOrderSum0 g < teamOrderSum1 g →
      (startPlayPhase scripts g).scores1 = g.scores1 + g.targetScore ∧
      (startPlayPhase scripts g).scores0 = g.scores0) ∧
    (teamOrderSum0 g = teamOrderSum1 g →
      (startPlayPhase scripts g).scores0 = g.scores0 ∧
      (startPlayPhase scripts g).scores1 = g.scores1) := by
  have hnd : (cs1 ++ c :: cs2).Nodup := by
    rw [hcats]
    decide
  have heq : startPlayPhase scripts g
      = scoreRound { playLoop scripts
          { g with phase := Phase.play,
                   playCategories := [PlayType.grande, PlayType.chica,
                     PlayType.pares, PlayType.juego],
                   playResults := [] } (cs1 ++ c :: cs2) with
          phase := Phase.scoring } := by
    unfold startPlayPhase
    dsimp only
    rw [hcats]
  rw [heq]
  have hpl := playLoop_ordago scripts cs1 c cs2
    { g with phase := Phase.play,
             playCategories := [PlayType.grande, PlayType.chica,
               PlayType.pares, PlayType.juego],
             playResults := [] } hord hpre hc
  obtain ⟨hs0, hs1, hT, hH, hM, hN, _⟩ := playLoop_preserves scripts
    (cs1 ++ c :: cs2)
    { g with phase := Phase.play,
             playCategories := [PlayType.grande, PlayType.chica,
               PlayType.pares, PlayType.juego],
             playResults := [] }
  have hordS : ({ playLoop scripts
      { g with phase := Phase.play,
               playCategories := [PlayType.grande, PlayType.chica,
                 PlayType.pares, PlayType.juego],
               playResults := [] } (cs1 ++ c :: cs2) with
      phase := Phase.scoring } : MusGame).ordagoActive = true := hpl.2
  have hso := scoreRound_ordago _ hordS
  have hts := teamOrderSum_congr ({ playLoop scripts
      { g with phase := Phase.play,
               playCategories := [PlayType.grande, PlayType.chica,
                 PlayType.pares, PlayType.juego],
               playResults := [] } (cs1 ++ c :: cs2) with
      phase := Phase.scoring } : MusGame) g hN hM hH
  have hres : (scoreRound { playLoop scripts
      { g with phase := Phase.play,
               playCategories := [PlayType.grande, PlayType.chica,
                 PlayType.pares, PlayType.juego],
               playResults := [] } (cs1 ++ c :: cs2) with
      phase := Phase.scoring }).playResults
        = cs1.map (fun c2 => (c2, roundOutcome g.turnOrder scripts c2))
          ++ [(c, roundOutcome g.turnOrder scripts c)] := by
    rw [(scoreRound_proj _).1]
    have h1 := hpl.1
    dsimp only at h1 ⊢
    rw [h1]
    simp
  refine ⟨hres, ?_, fun h => ?_, fun h => ?_, fun h => ?_⟩
  · intro c2 h2 r hmem
    rw [hres] at hmem
    rw [List.nodup_append] at hnd
    obtain ⟨_, hnd2, hdisj⟩ := hnd
    rcases List.mem_append.mp hmem with hm | hm
    · obtain ⟨a, ha, haeq⟩ := List.mem_map.mp hm
      have : a = c2 := congrArg Prod.fst haeq
      subst this
      exact hdisj ha (List.mem_cons_of_mem c h2)
    · have : c2 = c := by
        have := List.mem_singleton.mp hm
        exact congrArg Prod.fst this
      subst this
      exact (List.nodup_cons.mp hnd2).1 h2
  · have h2 := hso.1 (by rw [hts.1, hts.2]; exact h)
    constructor
    · rw [h2.1]
      dsimp only
      rw [hs0, hT]
    · rw [h2.2]
      dsimp only
      rw [hs1]
  · have h2 := hso.2.1 (by rw [hts.1, hts.2]; exact h)
    constructor
    · rw [h2.1]
      dsimp only
      rw [hs1, hT]
    · rw [h2.2]
      dsimp only
      rw [hs0]
  · have h2 := hso.2.2 (by rw [hts.1, hts.2]; exact h)
    constructor
    · rw [h2.1]
      dsimp only
      rw [hs0]
    · rw [h2.2]
      dsimp only
      rw [hs1]

end Mus

namespace Mus

/-- Witness for `claim3`: on `c3Game` (team 0 holds kings, team 1 aces)
with an ordago script in the grande round, only grande is recorded and
team 0 receives the full target score. -/
theorem claim3_witness :
    ((startPlayPhase c3Scripts c3Game).playResults
      = [(PlayType.grande, roundOutcome c3Game.turnOrder c3Scripts
          PlayType.grande)]) ∧
    ((startPlayPhase c3Scripts c3Game).scores0
      = c3Game.scores0 + c3Game.targetScore) ∧
    ((startPlayPhase c3Scripts c3Game).scores1 = c3Game.scores1) := by
  have h := claim3 c3Scripts c3Game [] .grande [.chica, .pares, .juego]
    rfl rfl (by simp) (by decide)
  have h3 := h.2.2.1 (by decide)
  exact ⟨by simpa using h.1, h3.1, h3.2⟩

end Mus

namespace Mus

/-! ## Score monotonicity and terminal persistence -/

/-- A fold whose step preserves scores and target preserves them
globally. -/
theorem foldl_pres3 {β : Type} (f : MusGame → β → MusGame)
    (h : ∀ (a : MusGame) (b : β), (f a b).scores0 = a.scores0 ∧
      (f a b).scores1 = a.scores1 ∧ (f a b).targetScore = a.targetScore) :
    ∀ (l : List β) (a : MusGame),
      (l.foldl f a).scores0 = a.scores0 ∧
      (l.foldl f a).scores1 = a.scores1 ∧
      (l.foldl f a).targetScore = a.targetScore := by
  intro l
  induction l with
  | nil => exact fun a => ⟨rfl, rfl, rfl⟩
  | cons x xs ih =>
    intro a
    simp only [List.foldl_cons]
    obtain ⟨i0, i1, i2⟩ := ih (f a x)
    obtain ⟨s0, s1, s2⟩ := h a x
    exact ⟨by rw [i0, s0], by rw [i1, s1], by rw [i2, s2]⟩

/-- One category of the scoring fold never decreases either component. -/
theorem scoreStep_ge (g : MusGame) (acc : Int × Int) (play : PlayType) :
    acc.1 ≤ (scoreStep g acc play).1 ∧ acc.2 ≤ (scoreStep g acc play).2 := by
  unfold scoreStep
  dsimp only
  split
  · exact ⟨le_refl _, le_refl _⟩
  · split
    · refine ⟨?_, ?_⟩ <;> simp
    · split
      · refine ⟨?_, ?_⟩ <;> simp
      · exact ⟨le_refl _, le_refl _⟩

/-- The scoring fold never decreases either component. -/
theorem scoreStep_foldl_ge (g : MusGame) :
    ∀ (cs : List PlayType) (acc : Int × Int),
      acc.1 ≤ (cs.foldl (scoreStep g) acc).1 ∧
      acc.2 ≤ (cs.foldl (scoreStep g) acc).2 := by
  intro cs
  induction cs with
  | nil => exact fun acc => ⟨le_refl _, le_refl _⟩
  | cons c rest ih =>
    intro acc
    simp only [List.foldl_cons]
    have h1 := scoreStep_ge g acc c
    have h2 := ih (scoreStep g acc c)
    exact ⟨le_trans h1.1 h2.1, le_trans h1.2 h2.2⟩

/-- `score_round` never decreases either team's score when the target
score is non-negative. -/
theorem scoreRound_mono (g : MusGame) (hT : 0 ≤ g.targetScore) :
    g.scores0 ≤ (scoreRound g).scores0 ∧
    g.scores1 ≤ (scoreRound g).scores1 := by
  unfold scoreRound resolveOrdago
  split
  · dsimp only
    constructor <;> · split <;> dsimp only <;> omega
  · dsimp only
    have h := scoreStep_foldl_ge g g.playCategories (0, 0)
    have h0 : (0 : Int) ≤ (g.playCategories.foldl (scoreStep g) (0, 0)).1 :=
      h.1
    have h1 : (0 : Int) ≤ (g.playCategories.foldl (scoreStep g) (0, 0)).2 :=
      h.2
    constructor <;> omega

/-- `perform_discard` touches neither scores nor the target score. -/
theorem performDiscard_scores (shuffle : List Card → List Card)
    (g : MusGame) (p : Nat) (idxs : List Nat) :
    (performDiscard shuffle g p idxs).scores0 = g.scores0 ∧
    (performDiscard shuffle g p idxs).scores1 = g.scores1 ∧
    (performDiscard shuffle g p idxs).targetScore = g.targetScore :=
  ⟨(drawFromDeck_proj shuffle _ _).2.1,
   (drawFromDeck_proj shuffle _ _).2.2.1,
   (drawFromDeck_proj shuffle _ _).2.2.2⟩

/-- `update_covert_signal` touches neither scores nor the target score. -/
theorem updateCovertSignal_scores (rolls : Nat → Bool) (g : MusGame)
    (player sig : Nat) :
    (updateCovertSignal rolls g player sig).scores0 = g.scores0 ∧
    (updateCovertSignal rolls g player sig).scores1 = g.scores1 ∧
    (updateCovertSignal rolls g player sig).targetScore = g.targetScore := by
  unfold updateCovertSignal
  split
  · exact ⟨rfl, rfl, rfl⟩
  · exact foldl_pres3 _
      (fun a b => by
        split
        · exact ⟨rfl, rfl, rfl⟩
        · exact ⟨rfl, rfl, rfl⟩) _ _

/-- `initial_deal` touches neither scores nor the target score. -/
theorem initialDeal_scores (shuffle : List Card → List Card) (g : MusGame) :
    (initialDeal shuffle g).scores0 = g.scores0 ∧
    (initialDeal shuffle g).scores1 = g.scores1 ∧
    (initialDeal shuffle g).targetScore = g.targetScore :=
  foldl_pres3 (dealStep shuffle)
    (fun a _ => ⟨(drawFromDeck_proj shuffle a 4).2.1,
      (drawFromDeck_proj shuffle a 4).2.2.1,
      (drawFromDeck_proj shuffle a 4).2.2.2⟩)
    (List.range g.numPlayers) g

end Mus

namespace Mus

/-- The signal half of a `mus`-phase action entry touches neither scores
nor the target score. -/
theorem musSignal_scores (rolls : Nat → Bool) (gg : MusGame)
    (pa : Nat × PAction) :
    ((if pa.2.actionType = 5 then
        match pa.2.signal with
        | some sv => updateCovertSignal rolls gg pa.1 sv
        | none => gg
      else gg) : MusGame).scores0 = gg.scores0 ∧
    ((if pa.2.actionType = 5 then
        match pa.2.signal with
        | some sv => updateCovertSignal rolls gg pa.1 sv
        | none => gg
      else gg) : MusGame).scores1 = gg.scores1 ∧
    ((if pa.2.actionType = 5 then
        match pa.2.signal with
        | some sv => updateCovertSignal rolls gg pa.1 sv
        | none => gg
      else gg) : MusGame).targetScore = gg.targetScore := by
  split
  · split
    · exact updateCovertSignal_scores rolls gg pa.1 _
    · exact ⟨rfl, rfl, rfl⟩
  · exact ⟨rfl, rfl, rfl⟩

/-- One `mus`-phase action entry touches neither scores nor the target
score. -/
theorem stepMusAction_scores (shuffle : List Card → List Card)
    (rolls : Nat → Bool) (gg : MusGame) (pa : Nat × PAction) :
    (stepMusAction shuffle rolls gg pa).scores0 = gg.scores0 ∧
    (stepMusAction shuffle rolls gg pa).scores1 = gg.scores1 ∧
    (stepMusAction shuffle rolls gg pa).targetScore = gg.targetScore := by
  have h1 := musSignal_scores rolls gg pa
  unfold stepMusAction
  dsimp only
  by_cases h0 : pa.2.actionType = 0
  · rw [if_pos h0]
    rcases hcc : pa.2.cards with _ | mask
    · exact h1
    · dsimp only
      have h2 := performDiscard_scores shuffle
        (if pa.2.actionType = 5 then
          match pa.2.signal with
          | some sv => updateCovertSignal rolls gg pa.1 sv
          | none => gg
         else gg) pa.1 (maskToIdxs mask)
      exact ⟨by rw [h2.1, h1.1], by rw [h2.2.1, h1.2.1],
        by rw [h2.2.2, h1.2.2]⟩
  · rw [if_neg h0]
    exact h1

/-- `start_play_phase` never decreases either score and keeps the target
score. -/
theorem startPlayPhase_mono (scripts : PlayType → List (Nat × BAction))
    (g : MusGame) (hT : 0 ≤ g.targetScore) :
    g.scores0 ≤ (startPlayPhase scripts g).scores0 ∧
    g.scores1 ≤ (startPlayPhase scripts g).scores1 ∧
    (startPlayPhase scripts g).targetScore = g.targetScore := by
  obtain ⟨p0, p1, pT, _, _, _, _⟩ := playLoop_preserves scripts
    [PlayType.grande, PlayType.chica, PlayType.pares, PlayType.juego]
    { g with phase := Phase.play,
             playCategories := [PlayType.grande, PlayType.chica,
               PlayType.pares, PlayType.juego],
             playResults := [] }
  have hTS : ({ playLoop scripts
      { g with phase := Phase.play,
               playCategories := [PlayType.grande, PlayType.chica,
                 PlayType.pares, PlayType.juego],
               playResults := [] }
      [PlayType.grande, PlayType.chica, PlayType.pares, PlayType.juego] with
      phase := Phase.scoring } : MusGame).targetScore = g.targetScore := pT
  have hmono := scoreRound_mono ({ playLoop scripts
      { g with phase := Phase.play,
               playCategories := [PlayType.grande, PlayType.chica,
                 PlayType.pares, PlayType.juego],
               playResults := [] }
      [PlayType.grande, PlayType.chica, PlayType.pares, PlayType.juego] with
      phase := Phase.scoring } : MusGame) (by rw [hTS]; exact hT)
  have hp0 : ({ playLoop scripts
      { g with phase := Phase.play,
               playCategories := [PlayType.grande, PlayType.chica,
                 PlayType.pares, PlayType.juego],
               playResults := [] }
      [PlayType.grande, PlayType.chica, PlayType.pares, PlayType.juego] with
      phase := Phase.scoring } : MusGame).scores0 = g.scores0 := p0
  have hp1 : ({ playLoop scripts
      { g with phase := Phase.play,
               playCategories := [PlayType.grande, PlayType.chica,
                 PlayType.pares, PlayType.juego],
               playResults := [] }
      [PlayType.grande, PlayType.chica, PlayType.pares, PlayType.juego] with
      phase := Phase.scoring } : MusGame).scores1 = g.scores1 := p1
  refine ⟨?_, ?_, ?_⟩
  · have h := hmono.1
    rw [hp0] at h
    exact h
  · have h := hmono.2
    rw [hp1] at h
    exact h
  · have h := (scoreRound_proj ({ playLoop scripts
      { g with phase := Phase.play,
               playCategories := [PlayType.grande, PlayType.chica,
                 PlayType.pares, PlayType.juego],
               playResults := [] }
      [PlayType.grande, PlayType.chica, PlayType.pares, PlayType.juego] with
      phase := Phase.scoring } : MusGame)).2.1
    rw [hTS] at h
    exact h

/-- `step` never decreases either score and keeps the target score. -/
theorem stepGame_mono (shuffle : List Card → List Card)
    (scripts : PlayType → List (Nat × BAction)) (rolls : Nat → Bool)
    (g : MusGame) (actions : List (Nat × PAction))
    (hT : 0 ≤ g.targetScore) :
    g.scores0 ≤ (stepGame shuffle scripts rolls g actions).scores0 ∧
    g.scores1 ≤ (stepGame shuffle scripts rolls g actions).scores1 ∧
    (stepGame shuffle scripts rolls g actions).targetScore
      = g.targetScore := by
  unfold stepGame
  split
  · have hfold := foldl_pres3 (stepMusAction shuffle rolls)
      (stepMusAction_scores shuffle rolls) actions g
    have hsp := startPlayPhase_mono scripts
      (actions.foldl (stepMusAction shuffle rolls) g)
      (by rw [hfold.2.2]; exact hT)
    refine ⟨?_, ?_, ?_⟩
    · calc g.scores0 = (actions.foldl (stepMusAction shuffle rolls) g).scores0 :=
            hfold.1.symm
        _ ≤ _ := hsp.1
    · calc g.scores1 = (actions.foldl (stepMusAction shuffle rolls) g).scores1 :=
            hfold.2.1.symm
        _ ≤ _ := hsp.2.1
    · rw [hsp.2.2, hfold.2.2]
  · exact startPlayPhase_mono scripts g hT
  · exact ⟨le_refl _, le_refl _, rfl⟩
  · exact ⟨le_refl _, le_refl _, rfl⟩

/-- Terminality is preserved by any state change that does not decrease
scores and keeps the target score. -/
theorem isTerminal_mono (gA gB : MusGame) (h0 : gA.scores0 ≤ gB.scores0)
    (h1 : gA.scores1 ≤ gB.scores1) (hT : gB.targetScore = gA.targetScore) :
    isTerminal gA = true → isTerminal gB = true := by
  intro ht
  simp only [isTerminal, Bool.or_eq_true, decide_eq_true_eq] at ht ⊢
  rw [hT]
  rcases ht with h | h
  · left
    omega
  · right
    omega

end Mus

namespace Mus

/-- C10: with a non-negative target score, none of the game operations —
`initial_deal`, `step`, `start_play_phase`, `score_round` — ever decreases
either team's score, and consequently once `is_terminal` holds it keeps
holding after every operation. -/
theorem claim10 (shuffle : List Card → List Card)
    (scripts : PlayType → List (Nat × BAction)) (rolls : Nat → Bool)
    (g : MusGame) (hT : 0 ≤ g.targetScore) :
    (g.scores0 ≤ (initialDeal shuffle g).scores0 ∧
      g.scores1 ≤ (initialDeal shuffle g).scores1 ∧
      (isTerminal g = true → isTerminal (initialDeal shuffle g) = true)) ∧
    (∀ actions : List (Nat × PAction),
      g.scores0 ≤ (stepGame shuffle scripts rolls g actions).scores0 ∧
      g.scores1 ≤ (stepGame shuffle scripts rolls g actions).scores1 ∧
      (isTerminal g = true →
        isTerminal (stepGame shuffle scripts rolls g actions) = true)) ∧
    (g.scores0 ≤ (startPlayPhase scripts g).scores0 ∧
      g.scores1 ≤ (startPlayPhase scripts g).scores1 ∧
      (isTerminal g = true → isTerminal (startPlayPhase scripts g) = true)) ∧
    (g.scores0 ≤ (scoreRound g).scores0 ∧
      g.scores1 ≤ (scoreRound g).scores1 ∧
      (isTerminal g = true → isTerminal (scoreRound g) = true)) := by
  have hid := initialDeal_scores shuffle g
  have hsp := startPlayPhase_mono scripts g hT
  have hsr := scoreRound_mono g hT
  refine ⟨⟨le_of_eq hid.1.symm, le_of_eq hid.2.1.symm, ?_⟩,
    fun actions => ?_, ⟨hsp.1, hsp.2.1, ?_⟩,
    ⟨hsr.1, hsr.2, ?_⟩⟩
  · exact isTerminal_mono g (initialDeal shuffle g) (le_of_eq hid.1.symm)
      (le_of_eq hid.2.1.symm) hid.2.2
  · have hst := stepGame_mono shuffle scripts rolls g actions hT
    exact ⟨hst.1, hst.2.1, isTerminal_mono g _ hst.1 hst.2.1 hst.2.2⟩
  · exact isTerminal_mono g (startPlayPhase scripts g) hsp.1 hsp.2.1 hsp.2.2
  · exact isTerminal_mono g (scoreRound g) hsr.1 hsr.2
      (scoreRound_proj g).2.1

/-- Witness for `claim10`: a fresh four-player game with target 40 —
`score_round` and an empty `step` batch do not decrease the scores. -/
theorem claim10_witness :
    ((mkMusGame id 4 40).scores0 ≤ (scoreRound (mkMusGame id 4 40)).scores0) ∧
    ((mkMusGame id 4 40).scores1
      ≤ (stepGame id c3Scripts (fun _ => false) (mkMusGame id 4 40)
          []).scores1) ∧
    ((mkMusGame id 4 40).scores0
      ≤ (initialDeal id (mkMusGame id 4 40)).scores0) :=
  ⟨(claim10 id c3Scripts (fun _ => false) (mkMusGame id 4 40)
      (by decide)).2.2.2.1,
   ((claim10 id c3Scripts (fun _ => false) (mkMusGame id 4 40)
      (by decide)).2.1 []).2.1,
   (claim10 id c3Scripts (fun _ => false) (mkMusGame id 4 40)
      (by decide)).1.1⟩

end Mus
